import Mathlib

/-!
Verification of the NYML parsing engine (`src/parsers/javascript/nyml-parser.js`
and `src/parsers/javascript/nyml-parser-v2.js`) against its natural-language
specification.

Strings are modelled as lists of characters (`Str`); every JavaScript string
operation used by the parsers (`trim`, `trimStart`, `split`, `join`, `slice`,
`indexOf`) is defined below on that representation.  The parsers' mutable
entry/stack structures are modelled by explicit state passing: the JavaScript
code keeps a stack of references to growing arrays, where a child array is
reachable both from the stack and from its parent entry's `children` field;
here each stack frame carries its list of collected entries, and the list is
written back into the parent entry when the frame is popped (or at end of
input), which produces the same final structure.
-/

namespace Nyml

/-- JavaScript strings, modelled as lists of characters. -/
abbrev Str := List Char

/-- Literal helper: a Lean string literal as a `Str`. -/
def str (s : String) : Str := s.data

/-- JavaScript whitespace (the characters relevant to `String.prototype.trim`
for the ASCII inputs the parsers handle). -/
def wsp (c : Char) : Bool :=
  c = ' ' || c = '\t' || c = '\n' || c = '\r' || c = '\x0b' || c = '\x0c'

/-- JS `s.trimStart()`. -/
def trimStartS (s : Str) : Str := s.dropWhile wsp

/-- JS `s.trimEnd()`. -/
def trimEndS (s : Str) : Str := (s.reverse.dropWhile wsp).reverse

/-- JS `s.trim()`. -/
def trimS (s : Str) : Str := trimEndS (trimStartS s)

/-- `leadingSpaces` from nyml-parser.js (V1):
`s.length - s.trimStart().length`, so any leading whitespace counts. -/
def leadingSpaces (s : Str) : Nat := s.length - (trimStartS s).length

/-- `leadingSpaces` from nyml-parser-v2.js (V2): counts leading `' '`
characters only. -/
def leadingSpacesV2 : Str → Nat
  | [] => 0
  | c :: t => if c = ' ' then leadingSpacesV2 t + 1 else 0

/-- JS `text.split(c)` for a one-character separator: never returns an empty
list; `"".split(c) = [""]`. -/
def splitOnChar (c : Char) : Str → List Str
  | [] => [[]]
  | x :: xs =>
    if x = c then [] :: splitOnChar c xs
    else
      match splitOnChar c xs with
      | r :: rs => (x :: r) :: rs
      | [] => [[x]]

/-- `text.split('\n')` (V1, nyml-parser.js line 46). -/
def splitNl (s : Str) : List Str := splitOnChar '\n' s

/-- Strip one trailing `'\r'` from a line, used to model the `\r?` part of the
V2 line splitter. -/
def dropCr (s : Str) : Str :=
  match s.reverse with
  | '\r' :: t => t.reverse
  | _ => s

/-- `text.split(/\r?\n/)` (V2, nyml-parser-v2.js line 153): split at `'\n'`,
where a `'\r'` immediately before the `'\n'` is consumed with it.  Every piece
except the last was followed by a `'\n'` in the input, so it loses a trailing
`'\r'`; the final piece is kept as is. -/
def splitLinesV2 (s : Str) : List Str :=
  match splitNl s with
  | [] => []
  | p :: ps => (p :: ps).dropLast.map dropCr ++ [(p :: ps).getLast (by simp)]

/-- JS `array.join('\n')`. -/
def joinNl : List Str → Str
  | [] => []
  | [x] => x
  | x :: xs => x ++ '\n' :: joinNl xs

/-- JS `Math.min(...xs)` for a non-empty list (callers guard emptiness). -/
def minList : List Nat → Nat
  | [] => 0
  | [x] => x
  | x :: xs => min x (minList xs)

/-- JS `s.indexOf(c)` as an optional index. -/
def idxOf (c : Char) : Str → Option Nat
  | [] => none
  | x :: xs => if x = c then some 0 else (idxOf c xs).map (· + 1)

/-- JS `s.indexOf(c, 1)`: first occurrence at index ≥ 1. -/
def idxOfFrom1 (c : Char) (s : Str) : Option Nat :=
  match s with
  | [] => none
  | _ :: xs => (idxOf c xs).map (· + 1)

/-- Does the string start with the given character?  (Models the
`startsWith("#")` / `startsWith('"')` / `startsWith(":")` tests, which are all
single-character in the sources.) -/
def headIs (c : Char) : Str → Bool
  | [] => false
  | x :: _ => x = c

/-! ## Multiline-block content construction

Both parsers close a multiline block with the same shape of computation
(nyml-parser.js lines 64–92 and 156–182, nyml-parser-v2.js lines 109–143):
find the minimum indentation among non-blank collected lines, strip that many
characters from each non-blank line (blank lines become empty), collapse
multiple trailing blank lines into a single one, and join, appending a final
newline unless the last piece is blank.  They differ in how the minimum
indentation is counted: V1's `leadingSpaces` is
`s.length - s.trimStart().length` (any leading whitespace, tabs included),
while V2's counts only literal `' '` characters — so the two dedents diverge
on tab-led collected lines. -/

/-- The `while (pieces.length >= 2 && last two are "") pieces.pop()` loop
(nyml-parser.js lines 81–83, nyml-parser-v2.js lines 127–133), written on the
reversed list: drop the first of two leading blanks repeatedly. -/
def dropTwoBlank : List Str → List Str
  | [] :: [] :: t => dropTwoBlank ([] :: t)
  | l => l

/-- Collapse multiple trailing blank pieces into a single one. -/
def collapseTrailing (ps : List Str) : List Str := (dropTwoBlank ps.reverse).reverse

/-- `minIndent` as computed by nyml-parser-v2.js (lines 110–114): minimum
`leadingSpaces` count among non-blank lines, `0` if there are none, with the
V2 space-only count. -/
def minIndentOf (rawLines : List Str) : Nat :=
  if (rawLines.filter (fun r => !(trimS r).isEmpty)).isEmpty then 0
  else minList ((rawLines.filter (fun r => !(trimS r).isEmpty)).map leadingSpacesV2)

/-- The V2 dedented pieces: blank collected lines become empty strings, others
lose `minIndentOf rawLines` characters (`r.slice(minIndent)`). -/
def dedentPieces (rawLines : List Str) : List Str :=
  rawLines.map (fun r => if (trimS r).isEmpty then [] else r.drop (minIndentOf rawLines))

/-- `minIndent` as computed by nyml-parser.js (lines 67–71 and 158–162):
the same minimum, but with V1's `leadingSpaces`, which counts any leading
whitespace (`s.length - s.trimStart().length`). -/
def minIndentOfV1 (rawLines : List Str) : Nat :=
  if (rawLines.filter (fun r => !(trimS r).isEmpty)).isEmpty then 0
  else minList ((rawLines.filter (fun r => !(trimS r).isEmpty)).map leadingSpaces)

/-- The V1 dedented pieces: as `dedentPieces`, with the V1 whitespace count. -/
def dedentPiecesV1 (rawLines : List Str) : List Str :=
  rawLines.map (fun r => if (trimS r).isEmpty then [] else r.drop (minIndentOfV1 rawLines))

/-- Multiline content as built by nyml-parser.js (V1, lines 72–89 and 163–179):
join the collapsed pieces with `'\n'` and append a trailing `'\n'` unless the
last piece is blank; an empty collection yields `"\n"`. -/
def buildContentV1 (rawLines : List Str) : Str :=
  if (collapseTrailing (dedentPiecesV1 rawLines)).getLast? = some [] then
    joinNl (collapseTrailing (dedentPiecesV1 rawLines))
  else joinNl (collapseTrailing (dedentPiecesV1 rawLines)) ++ ['\n']

/-- Multiline content as built by nyml-parser-v2.js (`collectMultiline`,
lines 109–143): identical to the V1 computation except that an empty
collection yields `""` (line 140: `pieces.length > 0 ? ... : ""`). -/
def buildContentV2 (rawLines : List Str) : Str :=
  if (collapseTrailing (dedentPieces rawLines)).getLast? = some [] then
    joinNl (collapseTrailing (dedentPieces rawLines))
  else if (collapseTrailing (dedentPieces rawLines)).isEmpty then []
  else joinNl (collapseTrailing (dedentPieces rawLines)) ++ ['\n']

/-! ## V1 data model (nyml-parser.js) -/

/-- A V1 entry (nyml-parser.js line 137): `key`, `quoted_key`, 1-based `line`,
`indent`, the raw line, and at most one of `value` / `children`.  In the
JavaScript object the absent fields are `undefined`; `children` distinguishes
absent (`none`) from the empty array (`some []`), which is truthy in JS. -/
inductive Entry : Type where
  | mk (key : Str) (quoted : Bool) (line : Nat) (indent : Nat) (raw : Str)
       (value : Option Str) (children : Option (List Entry))

def Entry.key : Entry → Str
  | .mk k _ _ _ _ _ _ => k

def Entry.quoted : Entry → Bool
  | .mk _ q _ _ _ _ _ => q

def Entry.line : Entry → Nat
  | .mk _ _ l _ _ _ _ => l

def Entry.indent : Entry → Nat
  | .mk _ _ _ i _ _ _ => i

def Entry.raw : Entry → Str
  | .mk _ _ _ _ r _ _ => r

def Entry.value : Entry → Option Str
  | .mk _ _ _ _ _ v _ => v

def Entry.children : Entry → Option (List Entry)
  | .mk _ _ _ _ _ _ c => c

/-- `entry.value = content` (multiline close). -/
def Entry.withValue (v : Str) : Entry → Entry
  | .mk k q l i r _ c => .mk k q l i r (some v) c

/-- `entry.children = cs` (writing a popped frame's entries back into its
parent entry; in the source the parent holds a reference to the same array). -/
def Entry.withChildren (cs : List Entry) : Entry → Entry
  | .mk k q l i r v _ => .mk k q l i r v (some cs)

/-- Replace the last element of a list (the source mutates
`entries[entries.length - 1]` through a reference). -/
def replaceLast (f : Entry → Entry) : List Entry → List Entry
  | [] => []
  | [e] => [f e]
  | e :: rest => e :: replaceLast f rest

/-- One V1 stack frame: the entries collected so far at this level, and the
frame's indent (`indent + 1` of the opening key line, `0` for the root). -/
structure Frame : Type where
  entries : List Entry
  indent : Nat

/-- Write a popped frame's entry list into the last entry of the frame below
(the entry whose empty value opened the child container). -/
def sealEntries (cs : List Entry) (g : Frame) : Frame :=
  { g with entries := replaceLast (Entry.withChildren cs) g.entries }

/-- The V1 pop loop (nyml-parser.js lines 108–110):
`while (stack.length > 0 && indent < top.indent) stack.pop()`.  The stack is
kept as a top frame plus the frames below it; popping writes the top frame's
entries back into its parent entry.  The root frame has indent `0` and is
never popped, matching the source where `indent < 0` is impossible. -/
def popFrames (ind : Nat) : Frame → List Frame → Frame × List Frame
  | f, [] => (f, [])
  | f, g :: rest =>
    if ind < f.indent then popFrames ind (sealEntries f.entries g) rest else (f, g :: rest)

/-- Seal every remaining frame at end of input; the result is the root's
entry list. -/
def sealAll : Frame → List Frame → List Entry
  | f, [] => f.entries
  | f, g :: rest => sealAll (sealEntries f.entries g) rest

/-- Active multiline collection state (`multiline` local, nyml-parser.js
line 52): the trigger line's indent and the collected raw lines.  The source
also keeps a reference to the trigger entry; that entry is the last entry of
the top frame, which is where the close writes the content. -/
structure ML : Type where
  indent : Nat
  rawLines : List Str

/-- A structured parse error (`ParseError`, nyml-parser.js lines 9–24):
`code`, `message` and the 1-based line.  The V1 parser never passes a column. -/
structure PErr : Type where
  code : Str
  msg : Str
  line : Nat

/-- V1 parser state: the frame stack (top separated to keep it non-empty) and
the optional active multiline collection. -/
structure St : Type where
  top : Frame
  rest : List Frame
  ml : Option ML

/-- Key/value split of one content line (nyml-parser.js lines 113–135).
Quoted keys: closing quote via `indexOf('"', 1)`, then a `:` is required
after it; the key is `stripped.slice(1, end)`, the value the trimmed
remainder.  Plain keys: split the *raw* line at the first `:`; both sides are
trimmed.  Errors carry the code and message; the caller adds the line. -/
def parseKeyVal (raw : Str) : Except (Str × Str) (Str × Bool × Str) :=
  let stripped := trimStartS raw
  if headIs '"' stripped then
    match idxOfFrom1 '"' stripped with
    | none => .error (str ("UNMATCHED_QUOTE"), str ("Unmatched quote in key"))
    | some e =>
      let key := (stripped.take e).drop 1
      let rest := trimStartS (stripped.drop (e + 1))
      if headIs ':' rest then .ok (key, true, trimS (rest.drop 1))
      else .error (str ("MISSING_COLON"), str ("Missing colon after quoted key"))
  else
    match idxOf ':' raw with
    | none => .error (str ("MISSING_COLON"), str ("Missing colon in key-value pair"))
    | some idx => .ok (trimS (raw.take idx), false, trimS (raw.drop (idx + 1)))

/-- Close the active multiline block: assign the built content to the trigger
entry, which is the last entry of the top frame (the source writes through
`multiline.entry`; no entry is appended and no frame is pushed or popped while
a multiline collection is active, so the trigger is still the last entry of
the top frame). -/
def closeML (st : St) (m : ML) : St :=
  { st with
    top := { st.top with
             entries := replaceLast (Entry.withValue (buildContentV1 m.rawLines)) st.top.entries }
    ml := none }

/-- The action taken for a parsed key/value pair on the popped stack
(nyml-parser.js lines 137–153): append the new entry, then either start a
multiline collection (`|`), open a child container (empty value, pushing a
frame of indent `indent + 1`), or record a scalar value. -/
def applyKV (p : Frame × List Frame) (i : Nat) (ind : Nat) (raw : Str)
    (k : Str) (q : Bool) (vp : Str) : St :=
  if vp = ['|'] then
    ⟨{ p.1 with entries := p.1.entries ++ [.mk k q (i + 1) ind raw none none] },
     p.2, some ⟨ind, []⟩⟩
  else if vp.isEmpty then
    ⟨⟨[], ind + 1⟩,
     { p.1 with entries := p.1.entries ++ [.mk k q (i + 1) ind raw none (some [])] } :: p.2,
     none⟩
  else
    ⟨{ p.1 with entries := p.1.entries ++ [.mk k q (i + 1) ind raw (some vp) none] },
     p.2, none⟩

/-- Process one line outside multiline mode (nyml-parser.js lines 99–153):
skip blanks and comments, pop frames, split key/value, then apply the
key/value action. -/
def stepNormal (st : St) (i : Nat) (raw : Str) : Except PErr St :=
  if (trimS raw).isEmpty then .ok st
  else if headIs '#' (trimStartS raw) then .ok st
  else
    match parseKeyVal raw with
    | .error e => .error ⟨e.1, e.2, i + 1⟩
    | .ok (k, q, vp) =>
      .ok (applyKV (popFrames (leadingSpaces raw) st.top st.rest) i
        (leadingSpaces raw) raw k q vp)

/-- Process one line (nyml-parser.js lines 54–97 for the multiline cases):
while collecting, a blank line is recorded as `""`; a line indented at most
the trigger's indent closes the block and is then processed normally; any
other line is collected verbatim. -/
def stepLine (st : St) (i : Nat) (raw : Str) : Except PErr St :=
  match st.ml with
  | some m =>
    if (trimS raw).isEmpty then
      .ok { st with ml := some ⟨m.indent, m.rawLines ++ [[]]⟩ }
    else if leadingSpaces raw ≤ m.indent then stepNormal (closeML st m) i raw
    else .ok { st with ml := some ⟨m.indent, m.rawLines ++ [raw]⟩ }
  | none => stepNormal st i raw

/-- Run the V1 per-line loop from a state; `i` is the 0-based index of the
first line of `ls`.  An error aborts the whole parse. -/
def runLines : St → Nat → List Str → Except PErr St
  | st, _, [] => .ok st
  | st, i, l :: ls =>
    match stepLine st i l with
    | .error e => .error e
    | .ok st2 => runLines st2 (i + 1) ls

/-- Initial V1 state: one root frame of indent `0`. -/
def initSt : St := ⟨⟨[], 0⟩, [], none⟩

/-- Close a multiline block still open at end of input, then seal all frames. -/
def finalizeSt (st : St) : List Entry :=
  let st2 := match st.ml with
    | some m => closeML st m
    | none => st
  sealAll st2.top st2.rest

/-- The V1 parse core: split on `'\n'`, run the line loop, close any open
multiline block, and return the root entry list. -/
def parseCore (text : Str) : Except PErr (List Entry) :=
  (runLines initSt 0 (splitNl text)).map finalizeSt

/-- The V1 document returned for `asEntries: true`
(`{ type: 'document', entries: rootEntries }`). -/
structure Document : Type where
  entries : List Entry

/-- `parseNyml(text, { asEntries: true })`. -/
def parseNymlEntries (text : Str) : Except PErr Document :=
  (parseCore text).map Document.mk

/-! ## The V1 mapping (JavaScript objects)

A JavaScript object with string keys is modelled as an association list in
insertion order: assigning to an existing key updates it in place, assigning
to a new key appends it.  (JavaScript's special ordering of integer-like keys
is not modelled; no key in the claims is integer-like.) -/

/-- The values a collapse produces: strings, objects, and (under the `all`
strategy) arrays. -/
inductive JValue : Type where
  | str (s : Str)
  | obj (fields : List (Str × JValue))
  | arr (vs : List JValue)

/-- `result[key] = v` on a JS object. -/
def objSet (m : List (Str × JValue)) (k : Str) (v : JValue) : List (Str × JValue) :=
  match m with
  | [] => [(k, v)]
  | (k2, v2) :: rest => if k2 = k then (k2, v) :: rest else (k2, v2) :: objSet rest k v

/-- `result[key]` on a JS object (`none` for an absent property). -/
def objGet (m : List (Str × JValue)) (k : Str) : Option JValue :=
  match m with
  | [] => none
  | (k2, v) :: rest => if k2 = k then some v else objGet rest k

/-- JS falsiness of the values that occur here: only the empty string is
falsy (`!result[key]` in `toMapping`). -/
def jsFalsy : JValue → Bool
  | .str [] => true
  | _ => false

/-- `result[key].push(val)`; only ever applied to arrays. -/
def arrPush (v : JValue) (x : JValue) : JValue :=
  match v with
  | .arr vs => .arr (vs ++ [x])
  | v => v

mutual

/-- `entriesToMapping` (nyml-parser.js lines 191–203): fold the entries in
order into an object, last write winning. -/
def entriesToMappingGo (acc : List (Str × JValue)) : List Entry → List (Str × JValue)
  | [] => acc
  | e :: rest => entriesToMappingGo (objSet acc e.key (entryMapValue e)) rest

/-- The value an entry contributes: a child container becomes a nested
object, otherwise `e.value == null ? '' : e.value`. -/
def entryMapValue (e : Entry) : JValue :=
  match e with
  | .mk _ _ _ _ _ v none => .str (v.getD [])
  | .mk _ _ _ _ _ _ (some cs) => .obj (entriesToMappingGo [] cs)

end

/-- `entriesToMapping(rootEntries)`. -/
def entriesToMapping (entries : List Entry) : List (Str × JValue) :=
  entriesToMappingGo [] entries

/-- `parseNyml(text)` without options: the last-write-wins mapping
(nyml-parser.js line 205). -/
def parseNyml (text : Str) : Except PErr JValue :=
  (parseCore text).map (fun es => .obj (entriesToMapping es))

mutual

/-- `toMapping` (nyml-parser.js lines 208–229), folded over the entries with
an object accumulator.  `all` appends each value to an ordered array (creating
it on first sight), `first` keeps the first write, anything else overwrites. -/
def toMappingGo (strategy : Str) (acc : List (Str × JValue)) : List Entry → List (Str × JValue)
  | [] => acc
  | e :: rest =>
    let val := toMappingValue strategy e
    let acc2 :=
      if strategy = str ("all") then
        match objGet acc e.key with
        | none => objSet acc e.key (.arr [val])
        | some v => if jsFalsy v then objSet acc e.key (.arr [val]) else objSet acc e.key (arrPush v val)
      else if strategy = str ("first") then
        match objGet acc e.key with
        | some _ => acc
        | none => objSet acc e.key val
      else objSet acc e.key val
    toMappingGo strategy acc2 rest

/-- `valueFromEntry` (nyml-parser.js lines 212–215). -/
def toMappingValue (strategy : Str) (e : Entry) : JValue :=
  match e with
  | .mk _ _ _ _ _ v none => .str (v.getD [])
  | .mk _ _ _ _ _ _ (some cs) => .obj (toMappingGo strategy [] cs)

end

/-- `toMapping(document, strategy)`. -/
def toMapping (d : Document) (strategy : Str) : JValue :=
  .obj (toMappingGo strategy [] d.entries)

/-! ## V2 data model and parser (nyml-parser-v2.js) -/

/-- A V2 node: a plain string, or a single-key object whose value is either a
string or a nested list (`{[key]: value}` in the source). -/
inductive Node : Type where
  | pstr (s : Str)
  | kstr (k : Str) (v : Str)
  | klist (k : Str) (vs : List Node)

/-- `parseKeyValue` (nyml-parser-v2.js lines 44–75): `none` models the
`[null, null]` result (empty line, unmatched quote, missing colon after a
quoted key, or no colon at all); note that unlike V1 it never throws, and the
plain split works on the stripped line. -/
def parseKeyValue (stripped : Str) : Option (Str × Str) :=
  if stripped.isEmpty then none
  else if headIs '"' stripped then
    match idxOfFrom1 '"' stripped with
    | none => none
    | some e =>
      let key := (stripped.take e).drop 1
      let rest := trimStartS (stripped.drop (e + 1))
      if headIs ':' rest then some (key, trimS (rest.drop 1)) else none
  else
    match idxOf ':' stripped with
    | none => none
    | some idx => some (trimS (stripped.take idx), trimS (stripped.drop (idx + 1)))

/-- The collection loop of `collectMultiline` (nyml-parser-v2.js lines
89–107), phrased on the list of lines after the trigger: blank lines are
collected as `""`; a line indented at most `baseIndent` ends the block; other
lines are collected verbatim.  Returns the collected lines and the remaining
lines. -/
def collectRaw (base : Int) : List Str → List Str × List Str
  | [] => ([], [])
  | line :: rest =>
    if (trimS line).isEmpty then
      let r := collectRaw base rest
      ([] :: r.1, r.2)
    else if (leadingSpacesV2 line : Int) ≤ base then ([], line :: rest)
    else
      let r := collectRaw base rest
      (line :: r.1, r.2)

/-- `collectMultiline(lines, startIdx, baseIndent)` (nyml-parser-v2.js lines
85–144): collect from `startIdx + 1`, dedent and join; returns the content and
the index of the first unconsumed line. -/
def collectMultiline (lines : List Str) (startIdx : Nat) (base : Int) : Str × Nat :=
  let r := collectRaw base (lines.drop (startIdx + 1))
  (buildContentV2 r.1, lines.length - r.2.length)

/-- One V2 stack frame: the list built at this level and its base indent
(`-1` for the root). -/
structure VFrame : Type where
  items : List Node
  base : Int

/-- Replace the last element of a node list. -/
def replaceLastNode (f : Node → Node) : List Node → List Node
  | [] => []
  | [n] => [f n]
  | n :: rest => n :: replaceLastNode f rest

/-- Write a popped frame's list back into the `{[key]: newList}` item of the
frame below that holds it (the source shares the array by reference). -/
def sealNodes (items : List Node) (g : VFrame) : VFrame :=
  { g with items := replaceLastNode (fun n =>
      match n with
      | .klist k _ => .klist k items
      | n => n) g.items }

/-- The V2 pop loop (nyml-parser-v2.js lines 173–175):
`while (stack.length > 1 && indent <= top.base) stack.pop()`. -/
def popV2 (ind : Int) : VFrame → List VFrame → VFrame × List VFrame
  | f, [] => (f, [])
  | f, g :: rest =>
    if ind ≤ f.base then popV2 ind (sealNodes f.items g) rest else (f, g :: rest)

/-- Seal every remaining V2 frame; the result is the root list. -/
def sealAllV2 : VFrame → List VFrame → List Node
  | f, [] => f.items
  | f, g :: rest => sealAllV2 (sealNodes f.items g) rest

/-- The V2 main loop (nyml-parser-v2.js lines 160–213), phrased on the list
of remaining lines; the multiline case continues from the lines
`collectMultiline` leaves unconsumed.  The `fuel` argument bounds the number
of iterations; every iteration consumes at least one line, so
`lines.length + 1` is always enough (the source's `while (i < lines.length)`
needs no fuel because `i` strictly increases). -/
def loopV2 : Nat → VFrame → List VFrame → List Str → VFrame × List VFrame
  | 0, top, rest, _ => (top, rest)
  | _ + 1, top, rest, [] => (top, rest)
  | fuel + 1, top, rest, line :: more =>
    if (trimS line).isEmpty then loopV2 fuel top rest more
    else
      match parseKeyValue (trimS line) with
      | none =>
        if (popV2 (leadingSpacesV2 line : Int) top rest).2.isEmpty then
          loopV2 fuel (popV2 (leadingSpacesV2 line : Int) top rest).1
            (popV2 (leadingSpacesV2 line : Int) top rest).2 more
        else
          loopV2 fuel
            { (popV2 (leadingSpacesV2 line : Int) top rest).1 with
                items := (popV2 (leadingSpacesV2 line : Int) top rest).1.items ++
                  [.pstr (trimS line)] }
            (popV2 (leadingSpacesV2 line : Int) top rest).2 more
      | some (k, v) =>
        if v = ['|'] then
          loopV2 fuel
            { (popV2 (leadingSpacesV2 line : Int) top rest).1 with
                items := (popV2 (leadingSpacesV2 line : Int) top rest).1.items ++
                  [.kstr k (buildContentV2 (collectRaw (leadingSpacesV2 line : Int) more).1)] }
            (popV2 (leadingSpacesV2 line : Int) top rest).2
            (collectRaw (leadingSpacesV2 line : Int) more).2
        else if v.isEmpty then
          loopV2 fuel ⟨[], (leadingSpacesV2 line : Int)⟩
            ({ (popV2 (leadingSpacesV2 line : Int) top rest).1 with
                items := (popV2 (leadingSpacesV2 line : Int) top rest).1.items ++
                  [.klist k []] } :: (popV2 (leadingSpacesV2 line : Int) top rest).2) more
        else
          loopV2 fuel
            { (popV2 (leadingSpacesV2 line : Int) top rest).1 with
                items := (popV2 (leadingSpacesV2 line : Int) top rest).1.items ++
                  [.kstr k v] }
            (popV2 (leadingSpacesV2 line : Int) top rest).2 more

/-- `parseNymlV2(text)` (nyml-parser-v2.js lines 152–216).  The function is
total: the V2 source defines `ParseError` but never throws it. -/
def parseNymlV2 (text : Str) : List Node :=
  let lines := splitLinesV2 text
  let p := loopV2 (lines.length + 1) ⟨[], -1⟩ [] lines
  sealAllV2 p.1 p.2

/-! ## Auxiliary definitions used by the claim statements -/

mutual

/-- All entries of a V1 entry forest, including nested ones. -/
def allEntriesList : List Entry → List Entry
  | [] => []
  | e :: rest => allEntriesOf e ++ allEntriesList rest

/-- An entry together with all entries nested below it. -/
def allEntriesOf : Entry → List Entry
  | .mk k q l i r v none => [.mk k q l i r v none]
  | .mk k q l i r v (some cs) => .mk k q l i r v (some cs) :: allEntriesList cs

end

mutual

/-- Does a V2 node list contain, at any depth, a keyed item whose value is
the empty list for the given key? -/
def hasEmptyKlist (k : Str) : List Node → Bool
  | [] => false
  | n :: rest => hasEmptyKnode k n || hasEmptyKlist k rest

/-- Does this node, or any node nested below it, carry the given key with an
empty-list value? -/
def hasEmptyKnode (k : Str) : Node → Bool
  | .pstr _ => false
  | .kstr _ _ => false
  | .klist k2 vs => (k2 = k && vs.isEmpty) || hasEmptyKlist k vs

end

/-- Pairwise-distinct key list (no duplicates). -/
def nodupKeys : List Str → Bool
  | [] => true
  | k :: t => !(t.contains k) && nodupKeys t

mutual

/-- No duplicate keys at any sibling level of a V1 entry forest. -/
def noDupTree : List Entry → Bool
  | [] => true
  | e :: rest => noDupBelow e && noDupTree rest

/-- No duplicate keys at any sibling level below one entry. -/
def noDupBelow : Entry → Bool
  | .mk _ _ _ _ _ _ none => true
  | .mk _ _ _ _ _ _ (some cs) => noDupTree cs && nodupKeys (cs.map Entry.key)

end

/-- No duplicate keys at any sibling level of a document, the root included. -/
def noDupDoc (es : List Entry) : Bool :=
  nodupKeys (es.map Entry.key) && noDupTree es

/-- The multiline content formula exactly as the claim states it: dedent every
collected line by the minimum indent of the non-blank collected lines (blank
lines becoming empty), join all of them with `'\n'`, and append one trailing
`'\n'` unless the last collected line is blank — with no line dropped. -/
def claimedContent (rawLines : List Str) : Str :=
  List.intercalate ['\n'] (dedentPieces rawLines) ++
    (if (dedentPieces rawLines).getLast? = some [] then [] else ['\n'])

/-- The amended content formula: as claimed, except that a run of two or more
trailing blank collected lines is first collapsed to a single blank line
(written here independently of the implementation, via `dropWhile` on the
reversed list). -/
def amendedCollapse (ps : List Str) : List Str :=
  if (ps.reverse.dropWhile (fun r => r.isEmpty)).length = ps.length then ps
  else (ps.reverse.dropWhile (fun r => r.isEmpty)).reverse ++ [[]]

/-- Amended content for the V1 builder: the collapse-amended formula with the
V1 any-whitespace dedent count (an empty collection yields `"\n"`). -/
def amendedContentV1 (rawLines : List Str) : Str :=
  List.intercalate ['\n'] (amendedCollapse (dedentPiecesV1 rawLines)) ++
    (if (amendedCollapse (dedentPiecesV1 rawLines)).getLast? = some [] then [] else ['\n'])

/-- Amended content for the V2 builder: the collapse-amended formula with the
V2 space-only dedent count (an empty collection yields `""`). -/
def amendedContentV2 (rawLines : List Str) : Str :=
  if rawLines.isEmpty then []
  else List.intercalate ['\n'] (amendedCollapse (dedentPieces rawLines)) ++
    (if (amendedCollapse (dedentPieces rawLines)).getLast? = some [] then [] else ['\n'])

/-- Blank-line normalisation performed by the collectors: a blank line is
recorded as the empty string, any other line verbatim. -/
def blankNorm (l : Str) : Str := if (trimS l).isEmpty then [] else l

/-! Invariants of the V1 parser state, used to trace one entry through a
parse (the proofs about empty-value keys need to know that the parser only
ever mutates the *last* entry of a frame, and only through the placeholder it
itself created). -/

/-- All entries reachable from the state: every frame's entry forest. -/
def stEntries (st : St) : List Entry :=
  ((st.top :: st.rest).map (fun f => allEntriesList f.entries)).flatten

/-- Every non-top frame's last entry is the placeholder of the frame above
it: an entry with `children = []` and no value, created by an empty-value key
and not yet written back. -/
def placeholdersOk (st : St) : Prop :=
  ∀ f ∈ st.rest, ∃ e0, f.entries.getLast? = some e0 ∧
    e0.children = some [] ∧ e0.value = none

/-- With a multiline collection active, the top frame's last entry is the
trigger entry: no value and no children yet. -/
def mlOk (st : St) : Prop :=
  ∀ m, st.ml = some m → ∃ e0, st.top.entries.getLast? = some e0 ∧
    e0.children = none ∧ e0.value = none

/-- Every entry in the state was created by a line numbered at most `b`. -/
def entryLinesLe (b : Nat) (st : St) : Prop := ∀ e ∈ stEntries st, e.line ≤ b

/-- The system invariant maintained by every parsing step. -/
def sysInv (b : Nat) (st : St) : Prop :=
  entryLinesLe b st ∧ placeholdersOk st ∧ mlOk st

/-- Per-entry invariant for the entry tracked by the C1 argument: created no
later than line `b`, and if created at the tracked line `n`, it is the
empty-children placeholder for key `k`. -/
def qInv (n : Nat) (k : Str) (b : Nat) (e : Entry) : Prop :=
  e.line ≤ b ∧ (e.line = n → e.key = k ∧ e.value = none ∧ e.children = some [])

/-- The combined invariant carried over the lines after the tracked key
line: every entry satisfies `qInv`, the tracked entry exists, every non-top
frame's last entry is a placeholder not created at line `n` (so no write-back
or multiline close can ever touch the tracked entry), and an active multiline
trigger is a value-less, childless last entry of the top frame. -/
def c1Inv (n : Nat) (k : Str) (b : Nat) (st : St) : Prop :=
  (∀ e ∈ stEntries st, qInv n k b e) ∧
  (∃ e ∈ stEntries st, e.line = n) ∧
  (∀ f ∈ st.rest, ∃ e0, f.entries.getLast? = some e0 ∧
    e0.children = some [] ∧ e0.value = none ∧ e0.line ≠ n) ∧
  mlOk st

/-- Modelled from the spec: the quoted-key lexer of §4.2, which the V1/V2
sources do not implement.  Scans from the character after the opening `'"'`;
a backslash escapes the next character verbatim; the first unescaped `'"'`
terminates the key.  Returns the key and the text after the closing quote, or
`none` when the quote never closes. -/
def specQuotedKeyScan : Str → Option (Str × Str)
  | [] => none
  | '\\' :: c :: t =>
    match specQuotedKeyScan t with
    | some (k, rest) => some (c :: k, rest)
    | none => none
  | '"' :: t => some ([], t)
  | c :: t =>
    match specQuotedKeyScan t with
    | some (k, rest) => some (c :: k, rest)
    | none => none

/-- Modelled from the spec (§4.2): parse a quoted-key line into key and
trimmed value, requiring a `':'` (after optional spaces) behind the closing
quote. -/
def specParseQuotedLine (stripped : Str) : Option (Str × Str) :=
  match stripped with
  | '"' :: t =>
    match specQuotedKeyScan t with
    | some (k, rest) =>
      let r2 := trimStartS rest
      if headIs ':' r2 then some (k, trimS (r2.drop 1)) else none
    | none => none
  | _ => none

/-! ## The V2 iteration as a step function, and reachability

One iteration of the V2 main loop (the body of the `while` in
nyml-parser-v2.js lines 160–213) as a function from a configuration — stack
plus remaining lines — to the next configuration.  `loopV2` is exactly the
fuelled iteration of this step. -/

/-- One iteration of the V2 main loop on a non-empty line list. -/
def stepV2 (top : VFrame) (rest : List VFrame) (line : Str) (more : List Str) :
    VFrame × List VFrame × List Str :=
  if (trimS line).isEmpty then (top, rest, more)
  else
    match parseKeyValue (trimS line) with
    | none =>
      if (popV2 (leadingSpacesV2 line : Int) top rest).2.isEmpty then
        ((popV2 (leadingSpacesV2 line : Int) top rest).1,
         (popV2 (leadingSpacesV2 line : Int) top rest).2, more)
      else
        ({ (popV2 (leadingSpacesV2 line : Int) top rest).1 with
            items := (popV2 (leadingSpacesV2 line : Int) top rest).1.items ++
              [.pstr (trimS line)] },
         (popV2 (leadingSpacesV2 line : Int) top rest).2, more)
    | some (k, v) =>
      if v = ['|'] then
        ({ (popV2 (leadingSpacesV2 line : Int) top rest).1 with
            items := (popV2 (leadingSpacesV2 line : Int) top rest).1.items ++
              [.kstr k (buildContentV2 (collectRaw (leadingSpacesV2 line : Int) more).1)] },
         (popV2 (leadingSpacesV2 line : Int) top rest).2,
         (collectRaw (leadingSpacesV2 line : Int) more).2)
      else if v.isEmpty then
        (⟨[], (leadingSpacesV2 line : Int)⟩,
         { (popV2 (leadingSpacesV2 line : Int) top rest).1 with
             items := (popV2 (leadingSpacesV2 line : Int) top rest).1.items ++
               [.klist k []] } :: (popV2 (leadingSpacesV2 line : Int) top rest).2,
         more)
      else
        ({ (popV2 (leadingSpacesV2 line : Int) top rest).1 with
            items := (popV2 (leadingSpacesV2 line : Int) top rest).1.items ++
              [.kstr k v] },
         (popV2 (leadingSpacesV2 line : Int) top rest).2, more)

/-- The V2 parser's configurations reachable by iterating `stepV2`: the
parser, started on the first configuration, at some point sits in the second
(with the second component of each triple being the still-unconsumed lines). -/
inductive ReachV2 : VFrame × List VFrame × List Str → VFrame × List VFrame × List Str → Prop where
  | refl (c : VFrame × List VFrame × List Str) : ReachV2 c c
  | step (top : VFrame) (rest : List VFrame) (line : Str) (more : List Str)
      (c : VFrame × List VFrame × List Str) :
      ReachV2 (stepV2 top rest line more) c → ReachV2 (top, rest, line :: more) c

/-- A V2 frame whose last item is a keyed list (the write-back target a child
frame needs). -/
def lastKlist (g : VFrame) : Prop :=
  ∃ k2 vs, g.items.getLast? = some (.klist k2 vs)

/-- Every non-top V2 frame ends in a keyed-list item: pushing a frame first
appends `{[key]: []}` to its parent. -/
def stackOkV2 (rest : List VFrame) : Prop := ∀ g ∈ rest, lastKlist g

/-- The tracked empty-list keyed item survives in the V2 stack: it is visible
in the top frame, or inside some non-top frame strictly before that frame's
last item (so no write-back can overwrite it). -/
def c2Inv (k : Str) (top : VFrame) (rest : List VFrame) : Prop :=
  hasEmptyKlist k top.items = true ∨
  ∃ g ∈ rest, hasEmptyKlist k g.items.dropLast = true

/-! # Theorems -/

/-! ## General lemmas about the string primitives -/

theorem splitOnChar_ne_nil (c : Char) (s : Str) : splitOnChar c s ≠ [] := by
  induction s with
  | nil => simp [splitOnChar]
  | cons x xs ih =>
    simp only [splitOnChar]
    split
    · simp
    · cases h : splitOnChar c xs with
      | nil => exact absurd h ih
      | cons r rs => simp

theorem splitOnChar_no_sep (c : Char) (s : Str) (h : c ∉ s) : splitOnChar c s = [s] := by
  induction s with
  | nil => rfl
  | cons x xs ih =>
    simp only [List.mem_cons, not_or] at h
    have hxc : ¬ x = c := fun hx => h.1 hx.symm
    simp only [splitOnChar, if_neg hxc]
    rw [ih h.2]

theorem splitOnChar_append_sep (c : Char) (ys : Str) :
    ∀ (xs : Str), c ∉ xs → splitOnChar c (xs ++ c :: ys) = xs :: splitOnChar c ys := by
  intro xs
  induction xs with
  | nil => intro _; simp [splitOnChar]
  | cons x t ih =>
    intro h
    simp only [List.mem_cons, not_or] at h
    have hxc : ¬ x = c := fun hx => h.1 hx.symm
    have h1 : (x :: t) ++ c :: ys = x :: (t ++ c :: ys) := rfl
    rw [h1]
    simp only [splitOnChar, if_neg hxc]
    rw [ih h.2]

theorem splitNl_joinNl (ps : List Str) (hne : ps ≠ [])
    (h : ∀ p ∈ ps, ('\n') ∉ p) : splitNl (joinNl ps) = ps := by
  induction ps with
  | nil => exact absurd rfl hne
  | cons p t ih =>
    cases t with
    | nil =>
      simp only [joinNl, splitNl]
      exact splitOnChar_no_sep _ _ (h p (by simp))
    | cons q u =>
      have hjoin : joinNl (p :: q :: u) = p ++ '\n' :: joinNl (q :: u) := rfl
      simp only [splitNl] at ih ⊢
      rw [hjoin, splitOnChar_append_sep _ _ _ (h p (by simp))]
      rw [ih (by simp) (fun x hx => h x (by simp [hx]))]

theorem idxOf_eq_none (c : Char) (s : Str) (h : c ∉ s) : idxOf c s = none := by
  induction s with
  | nil => rfl
  | cons x xs ih =>
    simp only [List.mem_cons, not_or] at h
    have hxc : ¬ x = c := fun hx => h.1 hx.symm
    simp only [idxOf, if_neg hxc]
    rw [ih h.2]
    rfl

theorem joinNl_append_blank (ps : List Str) (hne : ps ≠ []) :
    joinNl (ps ++ [[]]) = joinNl ps ++ ['\n'] := by
  induction ps with
  | nil => exact absurd rfl hne
  | cons p t ih =>
    cases t with
    | nil => simp [joinNl]
    | cons q u =>
      have h1 : joinNl ((p :: q :: u) ++ [[]]) = p ++ '\n' :: joinNl ((q :: u) ++ [[]]) := rfl
      have h2 : joinNl (p :: q :: u) = p ++ '\n' :: joinNl (q :: u) := rfl
      rw [h1, h2, ih (by simp)]
      simp

/-! ## V1 run/append lemmas -/

theorem runLines_append (xs : List Str) : ∀ (st : St) (i : Nat) (ys : List Str),
    runLines st i (xs ++ ys) =
      (match runLines st i xs with
       | .error e => .error e
       | .ok st2 => runLines st2 (i + xs.length) ys) := by
  induction xs with
  | nil => intro st i ys; simp [runLines]
  | cons l t ih =>
    intro st i ys
    show (match stepLine st i l with
          | Except.error e => Except.error e
          | Except.ok st2 => runLines st2 (i + 1) (t ++ ys)) =
         (match (match stepLine st i l with
                 | Except.error e => Except.error e
                 | Except.ok st2 => runLines st2 (i + 1) t) with
          | Except.error e => Except.error e
          | Except.ok st2 => runLines st2 (i + (l :: t).length) ys)
    cases stepLine st i l with
    | error e => rfl
    | ok st2 =>
      show runLines st2 (i + 1) (t ++ ys) =
        (match runLines st2 (i + 1) t with
         | Except.error e => Except.error e
         | Except.ok st3 => runLines st3 (i + (l :: t).length) ys)
      rw [ih st2 (i + 1) ys]
      simp only [List.length_cons]
      have h2 : i + 1 + t.length = i + (t.length + 1) := by omega
      rw [h2]

/-! ## Claim theorems (concrete and lexer-level claims) -/

/-- C6: for the V1 input `a: 1\nb: 2\na: 3\n`, `asEntries` yields the three
entries in input order, with the duplicate key appended and never merged;
`toMapping` with strategy `last` yields `{a:"3", b:"2"}`; strategy `all`
yields `{a:["1","3"], b:["2"]}`, the single-occurrence key `b` as a
one-element sequence, not a bare scalar. -/
theorem c6_duplicate_key_order :
    parseNymlEntries (joinNl [str ("a: 1"), str ("b: 2"), str ("a: 3"), []]) =
      .ok ⟨[.mk (str ("a")) false 1 0 (str ("a: 1")) (some (str ("1"))) none,
            .mk (str ("b")) false 2 0 (str ("b: 2")) (some (str ("2"))) none,
            .mk (str ("a")) false 3 0 (str ("a: 3")) (some (str ("3"))) none]⟩ ∧
    toMapping ⟨[.mk (str ("a")) false 1 0 (str ("a: 1")) (some (str ("1"))) none,
                .mk (str ("b")) false 2 0 (str ("b: 2")) (some (str ("2"))) none,
                .mk (str ("a")) false 3 0 (str ("a: 3")) (some (str ("3"))) none]⟩ (str ("last")) =
      .obj [(str ("a"), .str (str ("3"))), (str ("b"), .str (str ("2")))] ∧
    toMapping ⟨[.mk (str ("a")) false 1 0 (str ("a: 1")) (some (str ("1"))) none,
                .mk (str ("b")) false 2 0 (str ("b: 2")) (some (str ("2"))) none,
                .mk (str ("a")) false 3 0 (str ("a: 3")) (some (str ("3"))) none]⟩ (str ("all")) =
      .obj [(str ("a"), .arr [.str (str ("1")), .str (str ("3"))]),
            (str ("b"), .arr [.str (str ("2"))])] :=
  ⟨rfl, rfl, rfl⟩

/-- C10: for a `key: |` line with no more-indented lines after it, the two
parsers disagree: the V1 close builds `"" .join + "\n" = "\n"` from the empty
collection, while the V2 `collectMultiline` returns `""`; so `parseNyml`
records the value `"\n"` and `parseNymlV2` records `""`, both at end of input
and when a sibling line follows the trigger. -/
theorem c10_empty_multiline_disagreement :
    buildContentV1 [] = ['\n'] ∧
    buildContentV2 [] = [] ∧
    parseNyml (str ("key: |")) = .ok (.obj [(str ("key"), .str ['\n'])]) ∧
    parseNymlV2 (str ("key: |")) = [.kstr (str ("key")) []] ∧
    parseNyml (joinNl [str ("key: |"), str ("next: v")]) =
      .ok (.obj [(str ("key"), .str ['\n']), (str ("next"), .str (str ("v")))]) ∧
    parseNymlV2 (joinNl [str ("key: |"), str ("next: v")]) =
      [.kstr (str ("key")) [], .kstr (str ("next")) (str ("v"))] ∧
    (['\n'] : Str) ≠ [] :=
  ⟨rfl, rfl, rfl, rfl, rfl, rfl, by simp⟩

/-- C4 (code bug): the sources use `indexOf('"', 1)` with no backslash
handling, so for the line `"a\"b": v` the key scan stops at the escaped quote:
the V1 parser finds `b": v` after the "closing" quote and raises
`MISSING_COLON`, and the V2 parser treats the line as a plain string and drops
it at the root — whereas the escape-aware lexer required by the spec (§4.2,
and the repository's own parsing-logic notes) yields key `a"b` and value `v`. -/
theorem c4_quoted_key_escape_failing_input :
    parseKeyVal (['"', 'a', '\\', '"', 'b', '"', ':', ' ', 'v']) =
      .error (str ("MISSING_COLON"), str ("Missing colon after quoted key")) ∧
    parseNyml (['"', 'a', '\\', '"', 'b', '"', ':', ' ', 'v']) =
      .error ⟨str ("MISSING_COLON"), str ("Missing colon after quoted key"), 1⟩ ∧
    parseKeyValue (['"', 'a', '\\', '"', 'b', '"', ':', ' ', 'v']) = none ∧
    parseNymlV2 (['"', 'a', '\\', '"', 'b', '"', ':', ' ', 'v']) = [] ∧
    specParseQuotedLine (['"', 'a', '\\', '"', 'b', '"', ':', ' ', 'v']) =
      some (['a', '"', 'b'], ['v']) :=
  ⟨rfl, rfl, rfl, rfl, rfl⟩

/-- C1 (counterexample): for the V1 input `a:` — an empty value with no
subsequent more-indented line — the parser does not record an empty-string
scalar: the entry gets `children = []` and no `value`, and the mapping value
is the empty object `{}`, not `""`. -/
theorem c1_empty_value_counterexample :
    parseNyml (str ("a:")) = .ok (.obj [(str ("a"), .obj [])]) ∧
    parseNymlEntries (str ("a:")) =
      .ok ⟨[.mk (str ("a")) false 1 0 (str ("a:")) none (some [])]⟩ ∧
    (JValue.obj [] ≠ JValue.str []) ∧
    ((some [] : Option (List Entry)) ≠ none) :=
  ⟨rfl, rfl, by simp, by simp⟩

/-- C2 (counterexample): for the V2 input `key:` — an empty value at end of
input — `parseNymlV2` raises no error: it silently returns the keyed item with
an empty list value (the V2 source never throws; its `ParseError` class is
unused). -/
theorem c2_bare_key_no_error_counterexample :
    parseNymlV2 (str ("key:")) = [.klist (str ("key")) []] ∧
    parseNymlV2 (joinNl [str ("a: 1"), str ("key:")]) =
      [.kstr (str ("a")) (str ("1")), .klist (str ("key")) []] :=
  ⟨rfl, rfl⟩

/-- C3 (counterexample): the multiline builder is not the claimed
no-line-dropped formula: for collected lines `["  a", "", ""]` the claimed
formula gives `"a\n\n"` but the code collapses the run of trailing blank
lines and produces `"a\n"`. -/
theorem c3_dedent_counterexample :
    (collectRaw 0 [str ("  a"), [], []]).1 = [str ("  a"), [], []] ∧
    (collectMultiline [str ("k: |"), str ("  a"), [], []] 0 0).1 = ['a', '\n'] ∧
    claimedContent [str ("  a"), [], []] = ['a', '\n', '\n'] ∧
    (collectMultiline [str ("k: |"), str ("  a"), [], []] 0 0).1 ≠
      claimedContent [str ("  a"), [], []] :=
  ⟨rfl, rfl, rfl, by decide⟩

/-- C7 (counterexample): re-running the collector on the dedented content with
base indent zero does not reproduce the content — dedented lines have zero
indentation, so a zero base ends the block immediately: for the block under
`k: |` with content `" a"` the first collection yields `"a\n"`, the
re-collection with base `0` yields `""`. -/
theorem c7_recollect_base_zero_counterexample :
    (collectMultiline [str ("k: |"), str (" a")] 0 0).1 = ['a', '\n'] ∧
    (collectMultiline (str ("k: |") :: splitNl ['a', '\n']) 0 0).1 = [] ∧
    (collectMultiline (str ("k: |") :: splitNl
        (collectMultiline [str ("k: |"), str (" a")] 0 0).1) 0 0).1 ≠
      (collectMultiline [str ("k: |"), str (" a")] 0 0).1 :=
  ⟨rfl, rfl, by decide⟩

theorem stepNormal_missing_colon (st : St) (i : Nat) (raw : Str)
    (hblank : (trimS raw).isEmpty = false)
    (hcomment : headIs '#' (trimStartS raw) = false)
    (hquote : headIs '"' (trimStartS raw) = false)
    (hcolon : ':' ∉ raw) :
    stepNormal st i raw =
      .error ⟨str ("MISSING_COLON"), str ("Missing colon in key-value pair"), i + 1⟩ := by
  unfold stepNormal parseKeyVal
  simp only [hblank, hcomment, hquote, idxOf_eq_none ':' raw hcolon, Bool.false_eq_true,
    if_false]

/-- C8: a content line (not blank, not a comment, reached outside any
multiline block, not starting a quoted key) that contains no colon aborts the
V1 parse with a structured `MISSING_COLON` error carrying the correct 1-based
line number — whatever lines follow, no partial result is produced; both
public entry points return only the error.  (`pre` are the lines before the
offending line, parsed to a state not inside a multiline block; `post` the
lines after it.  The V2 parser raises nothing: every colon-free line there is
a plain-string context, handled under C9.) -/
theorem c8_missing_colon_line (pre post : List Str) (raw : Str) (st : St)
    (hnl : ∀ l ∈ pre ++ raw :: post, ('\n') ∉ l)
    (hpre : runLines initSt 0 pre = .ok st)
    (hml : st.ml = none)
    (hblank : (trimS raw).isEmpty = false)
    (hcomment : headIs '#' (trimStartS raw) = false)
    (hquote : headIs '"' (trimStartS raw) = false)
    (hcolon : ':' ∉ raw) :
    parseNyml (joinNl (pre ++ raw :: post)) =
      .error ⟨str ("MISSING_COLON"), str ("Missing colon in key-value pair"), pre.length + 1⟩ ∧
    parseNymlEntries (joinNl (pre ++ raw :: post)) =
      .error ⟨str ("MISSING_COLON"), str ("Missing colon in key-value pair"), pre.length + 1⟩ := by
  have hsplit : splitNl (joinNl (pre ++ raw :: post)) = pre ++ raw :: post :=
    splitNl_joinNl _ (by simp) hnl
  have hrun : runLines initSt 0 (pre ++ raw :: post) =
      .error ⟨str ("MISSING_COLON"), str ("Missing colon in key-value pair"), pre.length + 1⟩ := by
    rw [runLines_append pre initSt 0 (raw :: post), hpre]
    show runLines st (0 + pre.length) (raw :: post) = _
    have hstep : stepLine st (0 + pre.length) raw =
        .error ⟨str ("MISSING_COLON"), str ("Missing colon in key-value pair"), pre.length + 1⟩ := by
      unfold stepLine
      rw [hml]
      rw [stepNormal_missing_colon st (0 + pre.length) raw hblank hcomment hquote hcolon]
      have : 0 + pre.length + 1 = pre.length + 1 := by omega
      rw [this]
    show (match stepLine st (0 + pre.length) raw with
          | Except.error e => Except.error e
          | Except.ok st2 => runLines st2 (0 + pre.length + 1) post) = _
    rw [hstep]
  constructor
  · unfold parseNyml parseCore
    rw [hsplit, hrun]
    rfl
  · unfold parseNymlEntries parseCore
    rw [hsplit, hrun]
    rfl

/-- C9: `parseNymlV2` is total — the V2 source never throws (its `ParseError`
class is unused), which is why its model returns a plain node list.  Each
lexing failure the spec treats as a V1 error is handled leniently by
`parseKeyValue` returning the `[null, null]` tuple (here `none`): an unmatched
quote, a missing colon after a quoted key, and a colon-free line; such lines
are kept as plain strings inside a list context and dropped at the root. -/
theorem c9_v2_total_lenient_lexing :
    (∀ s : Str, headIs '"' s = true → idxOfFrom1 '"' s = none → parseKeyValue s = none) ∧
    (∀ (s : Str) (e : Nat), headIs '"' s = true → idxOfFrom1 '"' s = some e →
      headIs ':' (trimStartS (s.drop (e + 1))) = false → parseKeyValue s = none) ∧
    (∀ s : Str, headIs '"' s = false → idxOf ':' s = none → parseKeyValue s = none) ∧
    parseNymlV2 (str ("\"abc")) = [] ∧
    parseNymlV2 (joinNl [str ("k:"), str ("  \"abc")]) =
      [.klist (str ("k")) [.pstr (str ("\"abc"))]] ∧
    parseNymlV2 (str ("x y")) = [] ∧
    parseNymlV2 (joinNl [str ("k:"), str ("  x y")]) =
      [.klist (str ("k")) [.pstr (str ("x y"))]] := by
  refine ⟨?_, ?_, ?_, rfl, rfl, rfl, rfl⟩
  · intro s h1 h2
    cases s with
    | nil => simp [headIs] at h1
    | cons c t =>
      have hc : c = '"' := by simpa [headIs] using h1
      subst hc
      unfold parseKeyValue
      rw [h2]
      rfl
  · intro s e h1 h2 h3
    cases s with
    | nil => simp [headIs] at h1
    | cons c t =>
      have hc : c = '"' := by simpa [headIs] using h1
      subst hc
      unfold parseKeyValue
      rw [h2]
      show (if headIs ':' (trimStartS (List.drop (e + 1) ('"' :: t))) = true then _ else none) = none
      rw [h3]
      rfl
  · intro s h1 h2
    cases s with
    | nil => rfl
    | cons c t =>
      unfold parseKeyValue
      rw [h1, h2]
      rfl

/-- Witness for C8: line 2 of `a: 1\nkey value\nb: 2` has no colon and the
whole parse aborts with `MISSING_COLON` at line 2. -/
theorem c8_missing_colon_line_witness :
    (':' ∉ str ("key value")) ∧
    parseNyml (joinNl [str ("a: 1"), str ("key value"), str ("b: 2")]) =
      .error ⟨str ("MISSING_COLON"), str ("Missing colon in key-value pair"), 2⟩ :=
  ⟨by decide,
   (c8_missing_colon_line [str ("a: 1")] [str ("b: 2")] (str ("key value"))
      ⟨⟨[.mk (str ("a")) false 1 0 (str ("a: 1")) (some (str ("1"))) none], 0⟩, [], none⟩
      (by decide) rfl rfl rfl rfl rfl (by decide)).1⟩

/-- Witness for C9: the three lenient lexer cases at concrete lines — an
unmatched quote, a quoted key with no colon after it, and no colon at all. -/
theorem c9_v2_total_lenient_lexing_witness :
    parseKeyValue (str ("\"ab")) = none ∧
    parseKeyValue (str ("\"a\" b")) = none ∧
    parseKeyValue (str ("x y")) = none :=
  ⟨c9_v2_total_lenient_lexing.1 (str ("\"ab")) rfl rfl,
   c9_v2_total_lenient_lexing.2.1 (str ("\"a\" b")) 2 rfl rfl rfl,
   c9_v2_total_lenient_lexing.2.2.1 (str ("x y")) rfl rfl⟩

/-! ## Lemmas on the trailing-blank collapse and the joined content -/

theorem joinNl_eq_intercalate : ∀ ps : List Str, joinNl ps = List.intercalate ['\n'] ps
  | [] => by simp [joinNl, List.intercalate, List.intersperse]
  | [x] => by simp [joinNl, List.intercalate, List.intersperse]
  | x :: y :: t => by
    have ih := joinNl_eq_intercalate (y :: t)
    have h1 : joinNl (x :: y :: t) = x ++ '\n' :: joinNl (y :: t) := rfl
    rw [h1, ih]
    simp [List.intercalate, List.intersperse]

theorem dropTwoBlank_blank_cons : ∀ t : List Str,
    dropTwoBlank ([] :: t) = [] :: t.dropWhile (fun r => r.isEmpty) := by
  intro t
  induction t with
  | nil => rfl
  | cons a u ih =>
    by_cases ha : a = []
    · subst ha
      have h1 : dropTwoBlank ([] :: [] :: u) = dropTwoBlank ([] :: u) := rfl
      rw [h1, ih]
      simp [List.dropWhile]
    · have h1 : dropTwoBlank ([] :: a :: u) = [] :: a :: u := by
        cases a with
        | nil => exact absurd rfl ha
        | cons c cs => rfl
      rw [h1]
      have h2 : a.isEmpty = false := by
        cases a with
        | nil => exact absurd rfl ha
        | cons c cs => rfl
      simp [List.dropWhile, h2]

theorem dropTwoBlank_no_blank_head : ∀ (r : List Str),
    (∀ x, r ≠ [] :: x) → dropTwoBlank r = r := by
  intro r h
  match r with
  | [] => rfl
  | [] :: t => exact absurd rfl (h t)
  | (c :: cs) :: t => rfl

theorem dropTwoBlank_decomp : ∀ r : List Str,
    ∃ d, r = d ++ dropTwoBlank r ∧ ∀ x ∈ d, x = ([] : Str) := by
  intro r
  match r with
  | [] :: [] :: t =>
    have h1 : dropTwoBlank ([] :: [] :: t) = dropTwoBlank ([] :: t) := rfl
    obtain ⟨d, hd, hall⟩ := dropTwoBlank_decomp ([] :: t)
    refine ⟨[] :: d, ?_, ?_⟩
    · rw [h1]
      calc ([] : Str) :: [] :: t = [] :: (d ++ dropTwoBlank ([] :: t)) := by rw [← hd]
        _ = ([] :: d) ++ dropTwoBlank ([] :: t) := by simp
    · intro x hx
      rcases List.mem_cons.mp hx with h | h
      · exact h
      · exact hall x h
  | [] => exact ⟨[], rfl, by simp⟩
  | [[]] => exact ⟨[], rfl, by simp⟩
  | [] :: (c :: cs) :: t => exact ⟨[], rfl, by simp⟩
  | (c :: cs) :: t => exact ⟨[], rfl, by simp⟩

theorem dropTwoBlank_idem : ∀ r : List Str, dropTwoBlank (dropTwoBlank r) = dropTwoBlank r := by
  intro r
  match r with
  | [] :: [] :: t =>
    have h1 : dropTwoBlank ([] :: [] :: t) = dropTwoBlank ([] :: t) := rfl
    rw [h1]
    exact dropTwoBlank_idem ([] :: t)
  | [] => rfl
  | [[]] => rfl
  | [] :: (c :: cs) :: t => rfl
  | (c :: cs) :: t => rfl

theorem collapseTrailing_idem (ps : List Str) :
    collapseTrailing (collapseTrailing ps) = collapseTrailing ps := by
  unfold collapseTrailing
  rw [List.reverse_reverse, dropTwoBlank_idem]

theorem collapseTrailing_eq_amended (ps : List Str) :
    collapseTrailing ps = amendedCollapse ps := by
  unfold collapseTrailing amendedCollapse
  cases hrev : ps.reverse with
  | nil =>
    have hps : ps = [] := by simpa using congrArg List.reverse hrev
    subst hps
    simp [dropTwoBlank]
  | cons x t =>
    by_cases hx : x = []
    · subst hx
      rw [dropTwoBlank_blank_cons t]
      have hdw : ([] :: t).dropWhile (fun r : Str => r.isEmpty) =
          t.dropWhile (fun r => r.isEmpty) := by
        simp [List.dropWhile]
      rw [hdw]
      have hlen : (t.dropWhile (fun r : Str => r.isEmpty)).length < ps.length := by
        have h1 : ps.length = t.length + 1 := by
          have := congrArg List.length hrev
          simpa using this
        have h2 := (List.dropWhile_sublist (l := t) (fun r : Str => r.isEmpty)).length_le
        omega
      rw [if_neg (by omega)]
      simp
    · have hne : ∀ y, x :: t ≠ [] :: y := by
        intro y h
        injection h with h1 _
        exact hx h1
      rw [dropTwoBlank_no_blank_head (x :: t) hne]
      have hx2 : x.isEmpty = false := by
        cases x with
        | nil => exact absurd rfl hx
        | cons c cs => rfl
      have hdw : (x :: t).dropWhile (fun r : Str => r.isEmpty) = x :: t := by
        simp [List.dropWhile, hx2]
      have hplen : (x :: t).length = ps.length := by
        have := congrArg List.length hrev
        simpa using this.symm
      rw [hdw, if_pos hplen]
      rw [← hrev, List.reverse_reverse]

theorem dropTwoBlank_ne_nil : ∀ r : List Str, r ≠ [] → dropTwoBlank r ≠ [] := by
  intro r
  match r with
  | [] :: [] :: t =>
    intro _
    have h1 : dropTwoBlank ([] :: [] :: t) = dropTwoBlank ([] :: t) := rfl
    rw [h1]
    exact dropTwoBlank_ne_nil ([] :: t) (by simp)
  | [] => intro h; exact absurd rfl h
  | [[]] => intro _; simp [dropTwoBlank]
  | [] :: (c :: cs) :: t => intro _; simp [dropTwoBlank]
  | (c :: cs) :: t => intro _; simp [dropTwoBlank]

theorem collapseTrailing_ne_nil (ps : List Str) (h : ps ≠ []) : collapseTrailing ps ≠ [] := by
  unfold collapseTrailing
  intro h0
  have h1 : dropTwoBlank ps.reverse ≠ [] :=
    dropTwoBlank_ne_nil ps.reverse (by simpa using h)
  exact h1 (by simpa using h0)

/-- C3 (amended): each builder's multiline content is the claimed
dedent-and-join formula applied after collapsing any run of two or more
trailing blank collected lines to a single blank line (so relative
indentation is preserved but trailing blank lines are not all kept), where
the dedent count is per parser: V1 dedents by the minimum `leadingSpaces`
(any leading whitespace, tabs included) of the non-blank collected lines,
V2 by the minimum space-only count — so the two builders diverge on tab-led
collected lines, as the final two conjuncts witness on `["\ta"]`. -/
theorem c3_dedent_amended (rawLines : List Str) :
    (buildContentV1 rawLines = amendedContentV1 rawLines ∧
     buildContentV2 rawLines = amendedContentV2 rawLines) ∧
    buildContentV1 [['\t', 'a']] = ['a', '\n'] ∧
    buildContentV2 [['\t', 'a']] = ['\t', 'a', '\n'] := by
  refine ⟨⟨?_, ?_⟩, rfl, rfl⟩
  · have hcoll : collapseTrailing (dedentPiecesV1 rawLines) =
        amendedCollapse (dedentPiecesV1 rawLines) :=
      collapseTrailing_eq_amended _
    unfold buildContentV1 amendedContentV1
    rw [← hcoll, ← joinNl_eq_intercalate]
    by_cases hlast : (collapseTrailing (dedentPiecesV1 rawLines)).getLast? = some []
    · rw [if_pos hlast, if_pos hlast, List.append_nil]
    · rw [if_neg hlast, if_neg hlast]
  · cases hr : rawLines with
    | nil =>
      subst hr
      rfl
    | cons a t =>
      subst hr
      have hne : collapseTrailing (dedentPieces (a :: t)) ≠ [] :=
        collapseTrailing_ne_nil _ (by simp [dedentPieces])
      have hcoll2 : collapseTrailing (dedentPieces (a :: t)) =
          amendedCollapse (dedentPieces (a :: t)) :=
        collapseTrailing_eq_amended _
      unfold buildContentV2 amendedContentV2
      rw [if_neg (show ¬ ((a :: t).isEmpty = true) by simp)]
      rw [← hcoll2, ← joinNl_eq_intercalate]
      by_cases hlast : (collapseTrailing (dedentPieces (a :: t))).getLast? = some []
      · rw [if_pos hlast, if_pos hlast, List.append_nil]
      · rw [if_neg hlast, if_neg hlast, if_neg (by simpa using hne)]

/-! ## Lemmas for the re-collection property (C7) -/

theorem trimStartS_drop (k : Nat) :
    ∀ l : Str, k ≤ leadingSpacesV2 l → trimStartS (l.drop k) = trimStartS l := by
  induction k with
  | zero => intro l _; rw [List.drop_zero]
  | succ n ih =>
    intro l hk
    cases l with
    | nil => simp [leadingSpacesV2] at hk
    | cons c t =>
      by_cases hc : c = ' '
      · subst hc
        have hk2 : n ≤ leadingSpacesV2 t := by
          simp [leadingSpacesV2] at hk
          omega
        have h1 : (' ' :: t).drop (n + 1) = t.drop n := rfl
        rw [h1, ih t hk2]
        have h2 : trimStartS (' ' :: t) = trimStartS t := by
          simp [trimStartS, List.dropWhile, wsp]
        rw [h2]
      · exfalso
        simp only [leadingSpacesV2, if_neg hc] at hk
        omega

theorem trimS_drop (k : Nat) (l : Str) (h : k ≤ leadingSpacesV2 l) :
    trimS (l.drop k) = trimS l := by
  unfold trimS
  rw [trimStartS_drop k l h]

theorem leadingSpacesV2_drop (k : Nat) :
    ∀ l : Str, k ≤ leadingSpacesV2 l →
      leadingSpacesV2 (l.drop k) = leadingSpacesV2 l - k := by
  induction k with
  | zero => intro l _; simp
  | succ n ih =>
    intro l hk
    cases l with
    | nil => simp [leadingSpacesV2] at hk
    | cons c t =>
      by_cases hc : c = ' '
      · subst hc
        have hk2 : n ≤ leadingSpacesV2 t := by
          simp [leadingSpacesV2] at hk
          omega
        have h1 : (' ' :: t).drop (n + 1) = t.drop n := rfl
        rw [h1, ih t hk2]
        simp [leadingSpacesV2]
      · exfalso
        simp only [leadingSpacesV2, if_neg hc] at hk
        omega

theorem minList_le (x : Nat) : ∀ l : List Nat, x ∈ l → minList l ≤ x := by
  intro l
  induction l with
  | nil => intro h; simp at h
  | cons a t ih =>
    intro hx
    cases t with
    | nil =>
      simp only [List.mem_singleton] at hx
      subst hx
      exact Nat.le_refl _
    | cons b u =>
      have h1 : minList (a :: b :: u) = min a (minList (b :: u)) := rfl
      rw [h1]
      rcases List.mem_cons.mp hx with h | h
      · subst h; exact min_le_left _ _
      · exact le_trans (min_le_right _ _) (ih h)

theorem minList_mem : ∀ l : List Nat, l ≠ [] → minList l ∈ l := by
  intro l
  induction l with
  | nil => intro h; exact absurd rfl h
  | cons a t ih =>
    intro _
    cases t with
    | nil => simp [minList]
    | cons b u =>
      have h1 : minList (a :: b :: u) = min a (minList (b :: u)) := rfl
      rw [h1]
      rcases le_total a (minList (b :: u)) with h | h
      · rw [min_eq_left h]; simp
      · rw [min_eq_right h]
        exact List.mem_cons_of_mem a (ih (by simp))

theorem collectRaw_neg1 : ∀ ls : List Str, collectRaw (-1) ls = (ls.map blankNorm, []) := by
  intro ls
  induction ls with
  | nil => rfl
  | cons l rest ih =>
    unfold collectRaw
    by_cases hb : (trimS l).isEmpty = true
    · rw [if_pos hb, ih]
      simp [blankNorm, hb]
    · rw [if_neg hb]
      rw [if_neg (by omega)]
      rw [ih]
      simp [blankNorm, hb]

theorem collectRaw_mem (base : Int) :
    ∀ ls : List Str, ∀ p ∈ (collectRaw base ls).1, p = [] ∨ p ∈ ls := by
  intro ls
  induction ls with
  | nil => intro p hp; simp [collectRaw] at hp
  | cons l rest ih =>
    intro p hp
    unfold collectRaw at hp
    by_cases hb : (trimS l).isEmpty = true
    · rw [if_pos hb] at hp
      rcases List.mem_cons.mp hp with h | h
      · exact Or.inl h
      · rcases ih p h with h2 | h2
        · exact Or.inl h2
        · exact Or.inr (List.mem_cons_of_mem l h2)
    · rw [if_neg hb] at hp
      by_cases hind : (leadingSpacesV2 l : Int) ≤ base
      · rw [if_pos hind] at hp
        simp at hp
      · rw [if_neg hind] at hp
        rcases List.mem_cons.mp hp with h | h
        · exact Or.inr (by simp [h])
        · rcases ih p h with h2 | h2
          · exact Or.inl h2
          · exact Or.inr (List.mem_cons_of_mem l h2)

theorem minIndentOf_le (raws : List Str) (r : Str) (hr : r ∈ raws)
    (hnb : (trimS r).isEmpty = false) : minIndentOf raws ≤ leadingSpacesV2 r := by
  unfold minIndentOf
  have hmem : r ∈ raws.filter (fun r => !(trimS r).isEmpty) :=
    List.mem_filter.mpr ⟨hr, by simp [hnb]⟩
  rw [if_neg (by intro h0; rw [List.isEmpty_iff] at h0; rw [h0] at hmem; simp at hmem)]
  exact minList_le _ _ (List.mem_map_of_mem leadingSpacesV2 hmem)

/-- Characterisation of the dedented pieces: each is the empty string (from a
blank line) or a still-non-blank dedented suffix of a collected line. -/
theorem dedentPieces_mem (raws : List Str) (p : Str) (hp : p ∈ dedentPieces raws) :
    p = [] ∨ ((trimS p).isEmpty = false ∧
      ∃ r ∈ raws, (trimS r).isEmpty = false ∧ p = r.drop (minIndentOf raws)) := by
  unfold dedentPieces at hp
  obtain ⟨r, hr, hmap⟩ := List.mem_map.mp hp
  by_cases hb : (trimS r).isEmpty = true
  · rw [if_pos hb] at hmap
    exact Or.inl hmap.symm
  · rw [if_neg hb] at hmap
    refine Or.inr ⟨?_, r, hr, by simpa using hb, hmap.symm⟩
    rw [← hmap]
    rw [trimS_drop _ _ (minIndentOf_le raws r hr (by simpa using hb))]
    simpa using hb

theorem dedentPieces_no_newline (raws : List Str) (hnl : ∀ r ∈ raws, ('\n') ∉ r)
    (p : Str) (hp : p ∈ dedentPieces raws) : ('\n') ∉ p := by
  rcases dedentPieces_mem raws p hp with h | ⟨_, r, hr, _, hdrop⟩
  · subst h; simp
  · subst hdrop
    intro hmem
    exact hnl r hr ((List.drop_sublist _ _).mem hmem)

/-- If some collected line is non-blank, some dedented piece is non-blank with
zero leading spaces (the line attaining the minimum). -/
theorem dedentPieces_zero_survivor (raws : List Str)
    (h : ∃ r ∈ raws, (trimS r).isEmpty = false) :
    ∃ p ∈ dedentPieces raws, (trimS p).isEmpty = false ∧ leadingSpacesV2 p = 0 := by
  obtain ⟨r1, hr1, hnb1⟩ := h
  have hfil : raws.filter (fun r => !(trimS r).isEmpty) ≠ [] := by
    intro h0
    have : r1 ∈ raws.filter (fun r => !(trimS r).isEmpty) :=
      List.mem_filter.mpr ⟨hr1, by simp [hnb1]⟩
    rw [h0] at this
    simp at this
  have hmm := minList_mem ((raws.filter (fun r => !(trimS r).isEmpty)).map leadingSpacesV2)
    (by simpa using hfil)
  obtain ⟨r0, hr0f, hr0⟩ := List.mem_map.mp hmm
  have hr0raw : r0 ∈ raws := (List.mem_filter.mp hr0f).1
  have hr0nb : (trimS r0).isEmpty = false := by
    have := (List.mem_filter.mp hr0f).2
    simpa using this
  have hmi : minIndentOf raws = leadingSpacesV2 r0 := by
    unfold minIndentOf
    rw [if_neg (by simpa [List.isEmpty_iff] using hfil)]
    exact hr0.symm
  refine ⟨r0.drop (minIndentOf raws), ?_, ?_, ?_⟩
  · unfold dedentPieces
    refine List.mem_map.mpr ⟨r0, hr0raw, ?_⟩
    show (if (trimS r0).isEmpty = true then [] else r0.drop (minIndentOf raws)) =
      r0.drop (minIndentOf raws)
    rw [if_neg (by simp [hr0nb])]
  · rw [trimS_drop _ _ (by rw [hmi])]
    exact hr0nb
  · rw [leadingSpacesV2_drop _ _ (by rw [hmi]), hmi]
    omega

theorem collapseTrailing_decomp (ps : List Str) :
    ∃ d, ps = collapseTrailing ps ++ d ∧ ∀ x ∈ d, x = ([] : Str) := by
  obtain ⟨d, hd, hall⟩ := dropTwoBlank_decomp ps.reverse
  refine ⟨d.reverse, ?_, ?_⟩
  · unfold collapseTrailing
    calc ps = ps.reverse.reverse := by rw [List.reverse_reverse]
      _ = (d ++ dropTwoBlank ps.reverse).reverse := by rw [← hd]
      _ = (dropTwoBlank ps.reverse).reverse ++ d.reverse := by rw [List.reverse_append]
  · intro x hx
    exact hall x (by simpa using hx)

theorem collapseTrailing_mem (ps : List Str) (q : Str) (hq : q ∈ collapseTrailing ps) :
    q ∈ ps := by
  obtain ⟨d, hd, _⟩ := collapseTrailing_decomp ps
  rw [hd]
  exact List.mem_append_left d hq

theorem collapseTrailing_mem_of_nonblank (ps : List Str) (q : Str) (hq : q ∈ ps)
    (hnb : q ≠ []) : q ∈ collapseTrailing ps := by
  obtain ⟨d, hd, hall⟩ := collapseTrailing_decomp ps
  rw [hd] at hq
  rcases List.mem_append.mp hq with h | h
  · exact h
  · exact absurd (hall q h) hnb

theorem minIndentOf_zero_of_survivor (X : List Str)
    (h : ∃ p ∈ X, (trimS p).isEmpty = false ∧ leadingSpacesV2 p = 0) :
    minIndentOf X = 0 := by
  obtain ⟨p, hp, hnb, hz⟩ := h
  have h1 := minIndentOf_le X p hp hnb
  omega

theorem minIndentOf_zero_of_all_blank (X : List Str)
    (h : ∀ p ∈ X, (trimS p).isEmpty = true) : minIndentOf X = 0 := by
  unfold minIndentOf
  rw [if_pos]
  rw [List.isEmpty_iff, List.filter_eq_nil_iff]
  intro p hp
  simp [h p hp]

theorem mapBlankNorm_id (X : List Str)
    (hwf : ∀ p ∈ X, p = [] ∨ (trimS p).isEmpty = false) : X.map blankNorm = X := by
  induction X with
  | nil => rfl
  | cons p t ih =>
    have hbn : blankNorm p = p := by
      rcases hwf p (by simp) with h | h
      · subst h; rfl
      · unfold blankNorm; rw [if_neg (by simp [h])]
    simp only [List.map_cons, hbn]
    rw [ih (fun q hq => hwf q (List.mem_cons_of_mem p hq))]

theorem mapDedentZero_id (X : List Str)
    (hwf : ∀ p ∈ X, p = [] ∨ (trimS p).isEmpty = false) :
    X.map (fun r => if (trimS r).isEmpty = true then [] else r.drop 0) = X := by
  induction X with
  | nil => rfl
  | cons p t ih =>
    have hbn : (if (trimS p).isEmpty = true then [] else p.drop 0) = p := by
      rcases hwf p (by simp) with h | h
      · subst h; simp [trimS, trimStartS, trimEndS]
      · rw [if_neg (by simp [h]), List.drop_zero]
    simp only [List.map_cons, hbn]
    rw [ih (fun q hq => hwf q (List.mem_cons_of_mem p hq))]

theorem dedentPieces_id (X : List Str)
    (hwf : ∀ p ∈ X, p = [] ∨ (trimS p).isEmpty = false)
    (hmi : minIndentOf X = 0) : dedentPieces X = X := by
  unfold dedentPieces
  rw [hmi]
  exact mapDedentZero_id X hwf

theorem collapseTrailing_append_blank (P : List Str) (c : Char) (cs : Str)
    (h : P.getLast? = some (c :: cs)) : collapseTrailing (P ++ [[]]) = P ++ [[]] := by
  have hhead : P.reverse.head? = some (c :: cs) := by rw [List.head?_reverse, h]
  cases hrev : P.reverse with
  | nil => rw [hrev] at hhead; simp at hhead
  | cons x t =>
    rw [hrev] at hhead
    have hx : x = c :: cs := by simpa using hhead
    subst hx
    unfold collapseTrailing
    have h1 : (P ++ [[]]).reverse = [] :: P.reverse := by simp
    rw [h1, hrev]
    have h2 : dropTwoBlank ([] :: (c :: cs) :: t) = [] :: (c :: cs) :: t := rfl
    rw [h2]
    have h3 : (([] : Str) :: (c :: cs) :: t).reverse = ((c :: cs) :: t).reverse ++ [[]] := by
      simp
    rw [h3, ← hrev, List.reverse_reverse]

/-- Rebuilding a content string from its own pieces: if `P` is a non-empty
piece list that is stable under the trailing-blank collapse, whose elements
are empty or non-blank without newlines, and whose non-blank elements include
one with zero indentation whenever there are any, then re-collecting the
joined content (with base indent `-1`) rebuilds the same content. -/
theorem rebuild_aux (P : List Str) (hP : P ≠ [])
    (hwf : ∀ p ∈ P, p = [] ∨ (trimS p).isEmpty = false)
    (hnl : ∀ p ∈ P, ('\n') ∉ p)
    (hidem : collapseTrailing P = P)
    (hz : (∃ p ∈ P, (trimS p).isEmpty = false) →
      ∃ p ∈ P, (trimS p).isEmpty = false ∧ leadingSpacesV2 p = 0) :
    buildContentV2 ((collectRaw (-1)
        (splitNl (if P.getLast? = some [] then joinNl P else joinNl P ++ ['\n']))).1) =
      (if P.getLast? = some [] then joinNl P else joinNl P ++ ['\n']) := by
  by_cases hlast : P.getLast? = some []
  · rw [if_pos hlast]
    rw [splitNl_joinNl P hP hnl]
    have h1 : (collectRaw (-1) P).1 = P.map blankNorm := by rw [collectRaw_neg1]
    rw [h1, mapBlankNorm_id P hwf]
    have hmi : minIndentOf P = 0 := by
      by_cases hnb : ∃ p ∈ P, (trimS p).isEmpty = false
      · exact minIndentOf_zero_of_survivor P (hz hnb)
      · apply minIndentOf_zero_of_all_blank
        intro p hp
        by_contra hc
        exact hnb ⟨p, hp, by simpa using hc⟩
    unfold buildContentV2
    rw [dedentPieces_id P hwf hmi, hidem, if_pos hlast]
  · rw [if_neg hlast]
    obtain ⟨p, hpmem, hplast⟩ : ∃ p, p ∈ P ∧ P.getLast? = some p :=
      ⟨P.getLast hP, List.getLast_mem hP, List.getLast?_eq_getLast_of_ne_nil hP⟩
    have hpne : p ≠ [] := fun h => hlast (h ▸ hplast)
    obtain ⟨c, cs, hpcc⟩ : ∃ c cs, p = c :: cs := by
      cases p with
      | nil => exact absurd rfl hpne
      | cons c cs => exact ⟨c, cs, rfl⟩
    have hpnb : (trimS p).isEmpty = false := by
      rcases hwf p hpmem with h | h
      · exact absurd h hpne
      · exact h
    rw [← joinNl_append_blank P hP]
    have hwf2 : ∀ q ∈ P ++ [[]], q = [] ∨ (trimS q).isEmpty = false := by
      intro q hq
      rcases List.mem_append.mp hq with h | h
      · exact hwf q h
      · simp only [List.mem_singleton] at h
        exact Or.inl h
    rw [splitNl_joinNl (P ++ [[]]) (by simp) (fun q hq => by
      rcases List.mem_append.mp hq with h | h
      · exact hnl q h
      · simp only [List.mem_singleton] at h
        subst h
        simp)]
    have h1 : (collectRaw (-1) (P ++ [[]])).1 = (P ++ [[]]).map blankNorm := by
      rw [collectRaw_neg1]
    rw [h1, mapBlankNorm_id _ hwf2]
    have hmi2 : minIndentOf (P ++ [[]]) = 0 := by
      apply minIndentOf_zero_of_survivor
      obtain ⟨q, hq, hqs⟩ := hz ⟨p, hpmem, hpnb⟩
      exact ⟨q, List.mem_append_left _ hq, hqs⟩
    unfold buildContentV2
    rw [dedentPieces_id _ hwf2 hmi2]
    rw [collapseTrailing_append_blank P c cs (hpcc ▸ hplast)]
    rw [if_pos (List.getLast?_concat P)]

/-- Re-collecting any built V2 multiline content (with base indent `-1`)
rebuilds the same content. -/
theorem recollect_buildContentV2 (raws : List Str) (hrnl : ∀ r ∈ raws, ('\n') ∉ r) :
    buildContentV2 ((collectRaw (-1) (splitNl (buildContentV2 raws))).1) =
      buildContentV2 raws := by
  by_cases hP : collapseTrailing (dedentPieces raws) = []
  · have hc : buildContentV2 raws = [] := by
      unfold buildContentV2
      rw [hP]
      rfl
    rw [hc]
    rfl
  · have hwf : ∀ p ∈ collapseTrailing (dedentPieces raws),
        p = [] ∨ (trimS p).isEmpty = false := by
      intro p hp
      rcases dedentPieces_mem raws p (collapseTrailing_mem _ p hp) with h | ⟨hnb, _⟩
      · exact Or.inl h
      · exact Or.inr hnb
    have hnlP : ∀ p ∈ collapseTrailing (dedentPieces raws), ('\n') ∉ p := fun p hp =>
      dedentPieces_no_newline raws hrnl p (collapseTrailing_mem _ p hp)
    have hidem : collapseTrailing (collapseTrailing (dedentPieces raws)) =
        collapseTrailing (dedentPieces raws) := collapseTrailing_idem _
    have hz : (∃ p ∈ collapseTrailing (dedentPieces raws), (trimS p).isEmpty = false) →
        ∃ p ∈ collapseTrailing (dedentPieces raws),
          (trimS p).isEmpty = false ∧ leadingSpacesV2 p = 0 := by
      rintro ⟨p, hp, hnb⟩
      rcases dedentPieces_mem raws p (collapseTrailing_mem _ p hp) with h | ⟨_, r, hr, hrnb, _⟩
      · rw [h] at hnb
        simp [trimS, trimStartS, trimEndS] at hnb
      · obtain ⟨p0, hp0, hp0nb, hp0z⟩ := dedentPieces_zero_survivor raws ⟨r, hr, hrnb⟩
        have hp0ne : p0 ≠ [] := by
          intro h0
          rw [h0] at hp0nb
          simp [trimS, trimStartS, trimEndS] at hp0nb
        exact ⟨p0, collapseTrailing_mem_of_nonblank _ p0 hp0 hp0ne, hp0nb, hp0z⟩
    have hcontent : buildContentV2 raws =
        (if (collapseTrailing (dedentPieces raws)).getLast? = some [] then
          joinNl (collapseTrailing (dedentPieces raws))
        else joinNl (collapseTrailing (dedentPieces raws)) ++ ['\n']) := by
      unfold buildContentV2
      by_cases hl : (collapseTrailing (dedentPieces raws)).getLast? = some []
      · rw [if_pos hl, if_pos hl]
      · rw [if_neg hl, if_neg hl, if_neg (by simpa using hP)]
    rw [hcontent]
    exact rebuild_aux (collapseTrailing (dedentPieces raws)) hP hwf hnlP hidem hz

/-- C7 (amended): multiline dedent is idempotent on re-collection when the
collector is re-run with base indent `-1` (strictly below the dedented
content, whose minimum indentation is zero): feeding the dedented output back
to `collectMultiline` under a fresh trigger line reproduces the content
exactly.  (With base indent `0`, as the claim literally states, the first
zero-indented content line would end the block immediately.) -/
theorem c7_recollect_amended (lines : List Str) (startIdx : Nat) (base : Int)
    (hnl : ∀ l ∈ lines, ('\n') ∉ l) :
    (collectMultiline (str ("k: |") ::
        splitNl (collectMultiline lines startIdx base).1) 0 (-1)).1 =
      (collectMultiline lines startIdx base).1 := by
  have hraws : ∀ r ∈ (collectRaw base (lines.drop (startIdx + 1))).1, ('\n') ∉ r := by
    intro r hr
    rcases collectRaw_mem base _ r hr with h | h
    · subst h; simp
    · exact hnl r ((List.drop_sublist _ _).mem h)
  have hfst : ∀ (A : List Str) (i : Nat) (b : Int),
      (collectMultiline A i b).1 = buildContentV2 (collectRaw b (A.drop (i + 1))).1 :=
    fun _ _ _ => rfl
  rw [hfst, hfst]
  have hdrop : (str ("k: |") ::
      splitNl (buildContentV2 (collectRaw base (lines.drop (startIdx + 1))).1)).drop (0 + 1) =
      splitNl (buildContentV2 (collectRaw base (lines.drop (startIdx + 1))).1) := rfl
  rw [hdrop]
  exact recollect_buildContentV2 _ hraws

/-- Witness for C7 (amended): a concrete block whose dedented content is
reproduced by re-collection with base indent `-1`. -/
theorem c7_recollect_amended_witness :
    (collectMultiline (str ("k: |") ::
        splitNl (collectMultiline [str ("k: |"), str ("  x"), str ("    y")] 0 0).1) 0 (-1)).1 =
      (collectMultiline [str ("k: |"), str ("  x"), str ("    y")] 0 0).1 :=
  c7_recollect_amended [str ("k: |"), str ("  x"), str ("    y")] 0 0 (by decide)

/-! ## Lemmas for the mapping refinement (C5) -/

/-- `entriesToMapping` and `toMapping` with the default `last` strategy
perform the same fold: both assign every entry's value in order, overwriting
duplicates, at every nesting depth. -/
theorem entriesToMappingGo_eq_last : ∀ (n : Nat) (es : List Entry), sizeOf es ≤ n →
    ∀ acc, entriesToMappingGo acc es = toMappingGo (str ("last")) acc es := by
  intro n
  induction n with
  | zero =>
    intro es hsz
    cases es with
    | nil => intro acc; rfl
    | cons e rest => simp at hsz
  | succ n ih =>
    intro es hsz acc
    cases es with
    | nil => rfl
    | cons e rest =>
      have hval : entryMapValue e = toMappingValue (str ("last")) e := by
        cases e with
        | mk k q l i r v c =>
          cases c with
          | none => rfl
          | some cs =>
            have hcs : sizeOf cs ≤ n := by
              simp only [List.cons.sizeOf_spec, Entry.mk.sizeOf_spec,
                Option.some.sizeOf_spec] at hsz
              omega
            show JValue.obj (entriesToMappingGo [] cs) =
              JValue.obj (toMappingGo (str ("last")) [] cs)
            rw [ih cs hcs []]
      have hrest : sizeOf rest ≤ n := by
        simp only [List.cons.sizeOf_spec] at hsz
        have : 0 < sizeOf e := by
          cases e with
          | mk k q l i r v c => simp [Entry.mk.sizeOf_spec]
        omega
      show entriesToMappingGo (objSet acc e.key (entryMapValue e)) rest =
        toMappingGo (str ("last"))
          (if str ("last") = str ("all") then _ else
            if str ("last") = str ("first") then _ else objSet acc e.key
              (toMappingValue (str ("last")) e)) rest
      rw [if_neg (by decide), if_neg (by decide), ← hval]
      exact ih rest hrest (objSet acc e.key (entryMapValue e))

/-- C5: for every V1 input that parses (and, as the claim assumes, has no
duplicate keys at any sibling level), the default mapping returned by
`parseNyml(text)` equals `toMapping` applied with strategy `"last"` to the
document returned by `parseNyml(text, {asEntries: true})`. -/
theorem c5_mapping_refinement (text : Str) (d : Document)
    (hok : parseNymlEntries text = .ok d)
    (hnodup : noDupDoc d.entries = true) :
    parseNyml text = .ok (toMapping d (str ("last"))) := by
  unfold parseNymlEntries at hok
  unfold parseNyml
  cases hcore : parseCore text with
  | error e =>
    rw [hcore] at hok
    simp [Except.map] at hok
  | ok es =>
    rw [hcore] at hok
    have hd : Document.mk es = d := by simpa [Except.map] using hok
    show Except.ok (JValue.obj (entriesToMapping es)) = _
    rw [← hd]
    unfold toMapping entriesToMapping
    rw [entriesToMappingGo_eq_last (sizeOf es) es (Nat.le_refl _) []]

/-- Witness for C5 at a nested input with distinct keys. -/
theorem c5_mapping_refinement_witness :
    noDupDoc [Entry.mk (str ("a")) false 1 0 (str ("a: 1")) (some (str ("1"))) none,
              Entry.mk (str ("b")) false 2 0 (str ("b:")) none
                (some [Entry.mk (str ("c")) false 3 2 (str ("  c: 2")) (some (str ("2"))) none])] =
      true ∧
    parseNyml (joinNl [str ("a: 1"), str ("b:"), str ("  c: 2")]) =
      .ok (toMapping
        ⟨[Entry.mk (str ("a")) false 1 0 (str ("a: 1")) (some (str ("1"))) none,
          Entry.mk (str ("b")) false 2 0 (str ("b:")) none
            (some [Entry.mk (str ("c")) false 3 2 (str ("  c: 2")) (some (str ("2"))) none])]⟩
        (str ("last"))) :=
  ⟨rfl,
   c5_mapping_refinement (joinNl [str ("a: 1"), str ("b:"), str ("  c: 2")])
     ⟨[Entry.mk (str ("a")) false 1 0 (str ("a: 1")) (some (str ("1"))) none,
       Entry.mk (str ("b")) false 2 0 (str ("b:")) none
         (some [Entry.mk (str ("c")) false 3 2 (str ("  c: 2")) (some (str ("2"))) none])]⟩
     rfl rfl⟩

/-! ## Structural lemmas about the V1 entry forests and frames (for C1) -/

theorem allEntriesList_append : ∀ xs ys : List Entry,
    allEntriesList (xs ++ ys) = allEntriesList xs ++ allEntriesList ys := by
  intro xs ys
  induction xs with
  | nil => rfl
  | cons e t ih =>
    show allEntriesOf e ++ allEntriesList (t ++ ys) = _
    rw [ih]
    show _ = allEntriesOf e ++ allEntriesList t ++ allEntriesList ys
    rw [List.append_assoc]

theorem allEntriesOf_of_children_none (e : Entry) (h : e.children = none) :
    allEntriesOf e = [e] := by
  cases e with
  | mk k q l i r v c =>
    simp only [Entry.children] at h
    subst h
    rfl

theorem allEntriesOf_of_children_nil (e : Entry) (h : e.children = some []) :
    allEntriesOf e = [e] := by
  cases e with
  | mk k q l i r v c =>
    simp only [Entry.children] at h
    subst h
    rfl

theorem allEntriesOf_of_children_some (e : Entry) (cs : List Entry)
    (h : e.children = some cs) : allEntriesOf e = e :: allEntriesList cs := by
  cases e with
  | mk k q l i r v c =>
    simp only [Entry.children] at h
    subst h
    rfl

theorem self_mem_allEntriesOf (e : Entry) : e ∈ allEntriesOf e := by
  cases e with
  | mk k q l i r v c =>
    cases c with
    | none => simp [allEntriesOf]
    | some cs => simp [allEntriesOf]

theorem mem_allEntriesList_of_mem (es : List Entry) (e : Entry) (h : e ∈ es) :
    e ∈ allEntriesList es := by
  induction es with
  | nil => simp at h
  | cons e2 t ih =>
    show e ∈ allEntriesOf e2 ++ allEntriesList t
    rcases List.mem_cons.mp h with h2 | h2
    · subst h2
      exact List.mem_append_left _ (self_mem_allEntriesOf e)
    · exact List.mem_append_right _ (ih h2)

theorem replaceLast_eq_dropLast (f : Entry → Entry) :
    ∀ (es : List Entry) (e0 : Entry), es.getLast? = some e0 →
      replaceLast f es = es.dropLast ++ [f e0] := by
  intro es
  induction es with
  | nil => intro e0 h; simp at h
  | cons e t ih =>
    intro e0 h
    cases t with
    | nil =>
      simp only [List.getLast?_singleton] at h
      have he2 : e = e0 := Option.some.inj h
      subst he2
      rfl
    | cons e2 u =>
      rw [List.getLast?_cons_cons] at h
      show e :: replaceLast f (e2 :: u) = (e :: e2 :: u).dropLast ++ [f e0]
      rw [ih e0 h]
      rfl

theorem getLast?_eq_some_of_mem_ne_nil (es : List Entry) (h : es ≠ []) :
    ∃ e0, es.getLast? = some e0 ∧ e0 ∈ es :=
  ⟨es.getLast h, List.getLast?_eq_getLast_of_ne_nil h, List.getLast_mem h⟩

theorem dropLast_append_getLast_entries (es : List Entry) (e0 : Entry)
    (h : es.getLast? = some e0) : es.dropLast ++ [e0] = es := by
  have hne : es ≠ [] := by
    intro h0
    subst h0
    simp at h
  have h1 : es.getLast hne = e0 := by
    have := List.getLast?_eq_getLast_of_ne_nil hne
    rw [h] at this
    exact (Option.some.inj this).symm
  rw [← h1]
  exact List.dropLast_append_getLast hne

/-- Entries of a sealed frame: every entry satisfying `Q` is preserved when
the entry written to keeps `Q` under the write. -/
theorem sealEntries_treeAll (Q : Entry → Prop) (cs : List Entry) (g : Frame)
    (hg : ∀ e ∈ allEntriesList g.entries, Q e)
    (hcs : ∀ e ∈ allEntriesList cs, Q e)
    (hlast : ∀ e0, g.entries.getLast? = some e0 → Q (Entry.withChildren cs e0)) :
    ∀ e ∈ allEntriesList (sealEntries cs g).entries, Q e := by
  intro e he
  unfold sealEntries at he
  cases hg0 : g.entries.getLast? with
  | none =>
    have hnil : g.entries = [] := by
      cases hh : g.entries with
      | nil => rfl
      | cons a b =>
        rw [hh] at hg0
        simp [List.getLast?_eq_getLast_of_ne_nil (l := a :: b) (by simp)] at hg0
    rw [hnil] at he
    simp [replaceLast, allEntriesList] at he
  | some e0 =>
    rw [replaceLast_eq_dropLast _ _ e0 hg0] at he
    rw [allEntriesList_append] at he
    rcases List.mem_append.mp he with h | h
    · apply hg
      have hdecomp : g.entries.dropLast ++ [e0] = g.entries :=
        dropLast_append_getLast_entries _ _ hg0
      rw [← hdecomp, allEntriesList_append]
      exact List.mem_append_left _ h
    · have hw : (Entry.withChildren cs e0).children = some cs := by
        cases e0 with
        | mk k q l i r v c => rfl
      have hsingle : allEntriesList [Entry.withChildren cs e0] =
          Entry.withChildren cs e0 :: allEntriesList cs := by
        show allEntriesOf (Entry.withChildren cs e0) ++ allEntriesList [] = _
        rw [allEntriesOf_of_children_some _ cs hw]
        simp [allEntriesList]
      rw [hsingle] at h
      rcases List.mem_cons.mp h with h2 | h2
      · subst h2
        exact hlast e0 hg0
      · exact hcs e h2

/-- Entries of a sealed frame: an entry satisfying `P` survives the seal when
the written-to entry does not satisfy `P` and is a childless placeholder; the
sealed-in entries also land in the frame. -/
theorem sealEntries_treeEx (P : Entry → Prop) (cs : List Entry) (g : Frame) (e0 : Entry)
    (hg0 : g.entries.getLast? = some e0) (hnp : ¬ P e0) (hch : e0.children = some [])
    (hex : (∃ e ∈ allEntriesList g.entries, P e) ∨ (∃ e ∈ allEntriesList cs, P e)) :
    ∃ e ∈ allEntriesList (sealEntries cs g).entries, P e := by
  unfold sealEntries
  rw [replaceLast_eq_dropLast _ _ e0 hg0, allEntriesList_append]
  have hw : (Entry.withChildren cs e0).children = some cs := by
    cases e0 with
    | mk k q l i r v c => rfl
  have hsingle : allEntriesList [Entry.withChildren cs e0] =
      Entry.withChildren cs e0 :: allEntriesList cs := by
    show allEntriesOf (Entry.withChildren cs e0) ++ allEntriesList [] = _
    rw [allEntriesOf_of_children_some _ cs hw]
    simp [allEntriesList]
  rw [hsingle]
  rcases hex with ⟨e, he, hp⟩ | ⟨e, he, hp⟩
  · have hdecomp : g.entries.dropLast ++ [e0] = g.entries :=
      dropLast_append_getLast_entries _ _ hg0
    rw [← hdecomp, allEntriesList_append] at he
    rcases List.mem_append.mp he with h | h
    · exact ⟨e, List.mem_append_left _ h, hp⟩
    · have h1 : allEntriesList [e0] = [e0] := by
        show allEntriesOf e0 ++ allEntriesList [] = [e0]
        rw [allEntriesOf_of_children_nil e0 hch]
        rfl
      rw [h1] at h
      simp only [List.mem_singleton] at h
      subst h
      exact absurd hp hnp
  · exact ⟨e, List.mem_append_right _ (List.mem_cons_of_mem _ he), hp⟩

theorem popFrames_suffix (ind : Nat) :
    ∀ (rest : List Frame) (f : Frame), (popFrames ind f rest).2 <:+ rest := by
  intro rest
  induction rest with
  | nil => intro f; simp [popFrames]
  | cons g t ih =>
    intro f
    unfold popFrames
    by_cases h : ind < f.indent
    · rw [if_pos h]
      exact (ih (sealEntries f.entries g)).trans (List.suffix_cons g t)
    · rw [if_neg h]

theorem popFrames_treeAll (Q : Entry → Prop) (ind : Nat) :
    ∀ (rest : List Frame) (f : Frame),
    (∀ e ∈ allEntriesList f.entries, Q e) →
    (∀ g ∈ rest, ∀ e ∈ allEntriesList g.entries, Q e) →
    (∀ g ∈ rest, ∀ e0, g.entries.getLast? = some e0 →
      ∀ cs, (∀ e ∈ allEntriesList cs, Q e) → Q (Entry.withChildren cs e0)) →
    (∀ e ∈ allEntriesList (popFrames ind f rest).1.entries, Q e) ∧
    (∀ g ∈ (popFrames ind f rest).2, ∀ e ∈ allEntriesList g.entries, Q e) := by
  intro rest
  induction rest with
  | nil =>
    intro f htop _ _
    exact ⟨htop, by simp [popFrames]⟩
  | cons g t ih =>
    intro f htop hrest hclose
    unfold popFrames
    by_cases h : ind < f.indent
    · rw [if_pos h]
      apply ih (sealEntries f.entries g)
      · exact sealEntries_treeAll Q f.entries g (hrest g (by simp)) htop
          (fun e0 h0 => hclose g (by simp) e0 h0 f.entries htop)
      · exact fun g2 hg2 => hrest g2 (List.mem_cons_of_mem g hg2)
      · exact fun g2 hg2 => hclose g2 (List.mem_cons_of_mem g hg2)
    · rw [if_neg h]
      exact ⟨htop, hrest⟩

theorem popFrames_treeEx (P : Entry → Prop) (ind : Nat) :
    ∀ (rest : List Frame) (f : Frame),
    ((∃ e ∈ allEntriesList f.entries, P e) ∨
      (∃ g ∈ rest, ∃ e ∈ allEntriesList g.entries, P e)) →
    (∀ g ∈ rest, ∃ e0, g.entries.getLast? = some e0 ∧ ¬ P e0 ∧ e0.children = some []) →
    ((∃ e ∈ allEntriesList (popFrames ind f rest).1.entries, P e) ∨
      (∃ g ∈ (popFrames ind f rest).2, ∃ e ∈ allEntriesList g.entries, P e)) := by
  intro rest
  induction rest with
  | nil =>
    intro f hex _
    rcases hex with h | ⟨g, hg, _⟩
    · exact Or.inl h
    · simp at hg
  | cons g t ih =>
    intro f hex hne
    unfold popFrames
    by_cases h : ind < f.indent
    · rw [if_pos h]
      apply ih (sealEntries f.entries g)
      · obtain ⟨e0, hg0, hnp, hch⟩ := hne g (by simp)
        rcases hex with hx | ⟨g2, hg2, hx2⟩
        · exact Or.inl (sealEntries_treeEx P f.entries g e0 hg0 hnp hch (Or.inr hx))
        · rcases List.mem_cons.mp hg2 with h2 | h2
          · subst h2
            exact Or.inl (sealEntries_treeEx P f.entries g2 e0 hg0 hnp hch (Or.inl hx2))
          · exact Or.inr ⟨g2, h2, hx2⟩
      · exact fun g2 hg2 => hne g2 (List.mem_cons_of_mem g hg2)
    · rw [if_neg h]
      exact hex

theorem sealAll_treeAll (Q : Entry → Prop) :
    ∀ (rest : List Frame) (f : Frame),
    (∀ e ∈ allEntriesList f.entries, Q e) →
    (∀ g ∈ rest, ∀ e ∈ allEntriesList g.entries, Q e) →
    (∀ g ∈ rest, ∀ e0, g.entries.getLast? = some e0 →
      ∀ cs, (∀ e ∈ allEntriesList cs, Q e) → Q (Entry.withChildren cs e0)) →
    ∀ e ∈ allEntriesList (sealAll f rest), Q e := by
  intro rest
  induction rest with
  | nil => intro f htop _ _; exact htop
  | cons g t ih =>
    intro f htop hrest hclose
    show ∀ e ∈ allEntriesList (sealAll (sealEntries f.entries g) t), Q e
    apply ih (sealEntries f.entries g)
    · exact sealEntries_treeAll Q f.entries g (hrest g (by simp)) htop
        (fun e0 h0 => hclose g (by simp) e0 h0 f.entries htop)
    · exact fun g2 hg2 => hrest g2 (List.mem_cons_of_mem g hg2)
    · exact fun g2 hg2 => hclose g2 (List.mem_cons_of_mem g hg2)

theorem sealAll_treeEx (P : Entry → Prop) :
    ∀ (rest : List Frame) (f : Frame),
    ((∃ e ∈ allEntriesList f.entries, P e) ∨
      (∃ g ∈ rest, ∃ e ∈ allEntriesList g.entries, P e)) →
    (∀ g ∈ rest, ∃ e0, g.entries.getLast? = some e0 ∧ ¬ P e0 ∧ e0.children = some []) →
    ∃ e ∈ allEntriesList (sealAll f rest), P e := by
  intro rest
  induction rest with
  | nil =>
    intro f hex _
    rcases hex with h | ⟨g, hg, _⟩
    · exact h
    · simp at hg
  | cons g t ih =>
    intro f hex hne
    show ∃ e ∈ allEntriesList (sealAll (sealEntries f.entries g) t), P e
    apply ih (sealEntries f.entries g)
    · obtain ⟨e0, hg0, hnp, hch⟩ := hne g (by simp)
      rcases hex with hx | ⟨g2, hg2, hx2⟩
      · exact Or.inl (sealEntries_treeEx P f.entries g e0 hg0 hnp hch (Or.inr hx))
      · rcases List.mem_cons.mp hg2 with h2 | h2
        · subst h2
          exact Or.inl (sealEntries_treeEx P f.entries g2 e0 hg0 hnp hch (Or.inl hx2))
        · exact Or.inr ⟨g2, h2, hx2⟩
    · exact fun g2 hg2 => hne g2 (List.mem_cons_of_mem g hg2)

theorem mem_stEntries (st : St) (e : Entry) :
    e ∈ stEntries st ↔
      (e ∈ allEntriesList st.top.entries ∨ ∃ f ∈ st.rest, e ∈ allEntriesList f.entries) := by
  unfold stEntries
  simp [List.mem_flatten, List.mem_map]

theorem mem_entries_of_getLast? (es : List Entry) (e0 : Entry)
    (h : es.getLast? = some e0) : e0 ∈ es := by
  rw [← dropLast_append_getLast_entries es e0 h]
  simp

theorem allEntriesList_single (e1 : Entry) : allEntriesList [e1] = allEntriesOf e1 := by
  show allEntriesOf e1 ++ allEntriesList [] = _
  simp [allEntriesList]

theorem treeAll_append_one (Q : Entry → Prop) (es : List Entry) (e1 : Entry)
    (hQ : ∀ e ∈ allEntriesList es, Q e) (h1 : ∀ e ∈ allEntriesOf e1, Q e) :
    ∀ e ∈ allEntriesList (es ++ [e1]), Q e := by
  intro e he
  rw [allEntriesList_append, allEntriesList_single] at he
  rcases List.mem_append.mp he with h | h
  · exact hQ e h
  · exact h1 e h

theorem mem_allEntriesList_append_left (es : List Entry) (e1 : Entry) (e : Entry)
    (h : e ∈ allEntriesList es) : e ∈ allEntriesList (es ++ [e1]) := by
  rw [allEntriesList_append]
  exact List.mem_append_left _ h

theorem withChildren_nil_of_placeholder (e0 : Entry) (h : e0.children = some []) :
    Entry.withChildren [] e0 = e0 := by
  cases e0 with
  | mk k q l i r v c =>
    simp only [Entry.children] at h
    subst h
    rfl

theorem sealEntries_nil_of_placeholder (g : Frame) (e0 : Entry)
    (hg0 : g.entries.getLast? = some e0) (hch : e0.children = some []) :
    sealEntries [] g = g := by
  unfold sealEntries
  rw [replaceLast_eq_dropLast _ _ e0 hg0, withChildren_nil_of_placeholder e0 hch,
    dropLast_append_getLast_entries _ _ hg0]

theorem replaceLast_withValue_treeAll (Q : Entry → Prop) (c : Str) (es : List Entry)
    (e0 : Entry) (hg0 : es.getLast? = some e0) (hchn : e0.children = none)
    (hQ : ∀ e ∈ allEntriesList es, Q e)
    (hlast : Q (Entry.withValue c e0)) :
    ∀ e ∈ allEntriesList (replaceLast (Entry.withValue c) es), Q e := by
  intro e he
  rw [replaceLast_eq_dropLast _ _ e0 hg0, allEntriesList_append, allEntriesList_single] at he
  rcases List.mem_append.mp he with h | h
  · apply hQ
    rw [← dropLast_append_getLast_entries es e0 hg0, allEntriesList_append]
    exact List.mem_append_left _ h
  · have hw : (Entry.withValue c e0).children = none := by
      cases e0 with
      | mk k q l i r v ch =>
        simp only [Entry.children] at hchn
        subst hchn
        rfl
    rw [allEntriesOf_of_children_none _ hw] at h
    simp only [List.mem_singleton] at h
    subst h
    exact hlast

theorem replaceLast_withValue_treeEx (P : Entry → Prop) (c : Str) (es : List Entry)
    (e0 : Entry) (hg0 : es.getLast? = some e0) (hchn : e0.children = none)
    (hnp : ¬ P e0)
    (hex : ∃ e ∈ allEntriesList es, P e) :
    ∃ e ∈ allEntriesList (replaceLast (Entry.withValue c) es), P e := by
  obtain ⟨e, he, hp⟩ := hex
  rw [replaceLast_eq_dropLast _ _ e0 hg0, allEntriesList_append]
  rw [← dropLast_append_getLast_entries es e0 hg0, allEntriesList_append] at he
  rcases List.mem_append.mp he with h | h
  · exact ⟨e, List.mem_append_left _ h, hp⟩
  · rw [allEntriesList_single, allEntriesOf_of_children_none _ hchn] at h
    simp only [List.mem_singleton] at h
    subst h
    exact absurd hp hnp

theorem qInv_mono (n : Nat) (k : Str) (b b2 : Nat) (hb : b ≤ b2) (e : Entry)
    (h : qInv n k b e) : qInv n k b2 e :=
  ⟨le_trans h.1 hb, h.2⟩

theorem line_withValue (c : Str) (e : Entry) : (Entry.withValue c e).line = e.line := by
  cases e
  rfl

theorem line_withChildren (cs : List Entry) (e : Entry) :
    (Entry.withChildren cs e).line = e.line := by
  cases e
  rfl

theorem key_withChildren (cs : List Entry) (e : Entry) :
    (Entry.withChildren cs e).key = e.key := by
  cases e
  rfl

/-! ## Preservation of the system invariant through a V1 parse -/

theorem applyKV_sys (i ind : Nat) (raw k2 : Str) (q : Bool) (vp : Str)
    (p : Frame × List Frame)
    (hQtop : ∀ e ∈ allEntriesList p.1.entries, e.line ≤ i)
    (hQrest : ∀ g ∈ p.2, ∀ e ∈ allEntriesList g.entries, e.line ≤ i)
    (hrest : ∀ g ∈ p.2, ∃ e0, g.entries.getLast? = some e0 ∧
      e0.children = some [] ∧ e0.value = none) :
    sysInv (i + 1) (applyKV p i ind raw k2 q vp) := by
  have hnew : ∀ (v : Option Str) (c : Option (List Entry)),
      (c = none ∨ c = some []) →
      ∀ e ∈ allEntriesOf (Entry.mk k2 q (i + 1) ind raw v c), e.line ≤ i + 1 := by
    intro v c hc e he
    rcases hc with hc | hc
    · subst hc
      rw [allEntriesOf_of_children_none (Entry.mk k2 q (i + 1) ind raw v none) rfl] at he
      simp only [List.mem_singleton] at he
      subst he
      exact Nat.le_refl _
    · subst hc
      rw [allEntriesOf_of_children_nil (Entry.mk k2 q (i + 1) ind raw v (some [])) rfl] at he
      simp only [List.mem_singleton] at he
      subst he
      exact Nat.le_refl _
  have htop2 : ∀ (v : Option Str) (c : Option (List Entry)), (c = none ∨ c = some []) →
      ∀ e ∈ allEntriesList (p.1.entries ++ [Entry.mk k2 q (i + 1) ind raw v c]),
        e.line ≤ i + 1 :=
    fun v c hc => treeAll_append_one _ _ _
      (fun e2 h2 => le_trans (hQtop e2 h2) (by omega)) (hnew v c hc)
  unfold applyKV
  by_cases h1 : vp = ['|']
  · rw [if_pos h1]
    refine ⟨?_, ?_, ?_⟩
    · intro e he
      rcases (mem_stEntries _ e).mp he with h | ⟨f, hf, hef⟩
      · exact htop2 none none (Or.inl rfl) e h
      · exact le_trans (hQrest f hf e hef) (by omega)
    · intro f hf
      exact hrest f hf
    · intro m _
      exact ⟨.mk k2 q (i + 1) ind raw none none, List.getLast?_concat _, rfl, rfl⟩
  · rw [if_neg h1]
    by_cases h2 : vp.isEmpty
    · rw [if_pos h2]
      refine ⟨?_, ?_, ?_⟩
      · intro e he
        rcases (mem_stEntries _ e).mp he with h | ⟨f, hf, hef⟩
        · simp [allEntriesList] at h
        · rcases List.mem_cons.mp hf with h3 | h3
          · subst h3
            exact htop2 none (some []) (Or.inr rfl) e hef
          · exact le_trans (hQrest f h3 e hef) (by omega)
      · intro f hf
        rcases List.mem_cons.mp hf with h3 | h3
        · subst h3
          exact ⟨.mk k2 q (i + 1) ind raw none (some []), List.getLast?_concat _, rfl, rfl⟩
        · exact hrest f h3
      · intro m hm
        simp at hm
    · rw [if_neg h2]
      refine ⟨?_, ?_, ?_⟩
      · intro e he
        rcases (mem_stEntries _ e).mp he with h | ⟨f, hf, hef⟩
        · exact htop2 (some vp) none (Or.inl rfl) e h
        · exact le_trans (hQrest f hf e hef) (by omega)
      · intro f hf
        exact hrest f hf
      · intro m hm
        simp at hm

theorem closeML_sys (b : Nat) (st : St) (m : ML) (hml : st.ml = some m)
    (hinv : sysInv b st) : sysInv b (closeML st m) := by
  obtain ⟨hlin, hph, hmlo⟩ := hinv
  obtain ⟨e0, hg0, hchn, hvn⟩ := hmlo m hml
  refine ⟨?_, ?_, ?_⟩
  · intro e he
    rcases (mem_stEntries _ e).mp he with h | ⟨f, hf, hef⟩
    · refine replaceLast_withValue_treeAll _ _ _ e0 hg0 hchn
        (fun e2 h2 => hlin e2 ((mem_stEntries _ e2).mpr (Or.inl h2))) ?_ e h
      rw [line_withValue]
      exact hlin e0 ((mem_stEntries _ e0).mpr (Or.inl
        (mem_allEntriesList_of_mem _ _ (mem_entries_of_getLast? _ _ hg0))))
    · exact hlin e ((mem_stEntries _ e).mpr (Or.inr ⟨f, hf, hef⟩))
  · intro f hf
    exact hph f hf
  · intro m2 hm2
    simp [closeML] at hm2

theorem stepNormal_sys (i : Nat) (raw : Str) (st st' : St)
    (hinv : sysInv i st)
    (hok : stepNormal st i raw = .ok st') : sysInv (i + 1) st' := by
  obtain ⟨hlin, hph, hmlo⟩ := hinv
  unfold stepNormal at hok
  by_cases hb : (trimS raw).isEmpty = true
  · rw [if_pos hb] at hok
    have hst : st = st' := Except.ok.inj hok
    subst hst
    exact ⟨fun e he => le_trans (hlin e he) (by omega), hph, hmlo⟩
  · rw [if_neg hb] at hok
    by_cases hc : headIs '#' (trimStartS raw) = true
    · rw [if_pos hc] at hok
      have hst : st = st' := Except.ok.inj hok
      subst hst
      exact ⟨fun e he => le_trans (hlin e he) (by omega), hph, hmlo⟩
    · rw [if_neg hc] at hok
      cases hkv : parseKeyVal raw with
      | error e =>
        rw [hkv] at hok
        exact absurd hok (by simp)
      | ok kqv =>
        obtain ⟨k2, q, vp⟩ := kqv
        rw [hkv] at hok
        have hst : applyKV (popFrames (leadingSpaces raw) st.top st.rest) i
            (leadingSpaces raw) raw k2 q vp = st' := Except.ok.inj hok
        subst hst
        have hpop := popFrames_treeAll (fun e => e.line ≤ i) (leadingSpaces raw)
          st.rest st.top
          (fun e he => hlin e ((mem_stEntries _ e).mpr (Or.inl he)))
          (fun g hg e he => hlin e ((mem_stEntries _ e).mpr (Or.inr ⟨g, hg, he⟩)))
          (fun g hg e0 h0 cs hcs => by
            show (Entry.withChildren cs e0).line ≤ i
            rw [line_withChildren]
            exact hlin e0 ((mem_stEntries _ e0).mpr
              (Or.inr ⟨g, hg, mem_allEntriesList_of_mem _ _
                (mem_entries_of_getLast? _ _ h0)⟩)))
        apply applyKV_sys i (leadingSpaces raw) raw k2 q vp _ hpop.1 hpop.2
        intro g hg
        exact hph g ((popFrames_suffix (leadingSpaces raw) st.rest st.top).mem hg)

theorem stepLine_sys (i : Nat) (raw : Str) (st st' : St)
    (hinv : sysInv i st)
    (hok : stepLine st i raw = .ok st') : sysInv (i + 1) st' := by
  unfold stepLine at hok
  cases hml : st.ml with
  | none =>
    rw [hml] at hok
    exact stepNormal_sys i raw st st' hinv hok
  | some m =>
    rw [hml] at hok
    dsimp only at hok
    by_cases hb : (trimS raw).isEmpty = true
    · rw [if_pos hb] at hok
      have hst := Except.ok.inj hok
      subst hst
      obtain ⟨hlin, hph, hmlo⟩ := hinv
      refine ⟨fun e he => le_trans (hlin e he) (by omega), hph, ?_⟩
      intro m2 hm2
      simp at hm2
      obtain ⟨e0, hg0, h1, h2⟩ := hmlo m hml
      exact ⟨e0, hg0, h1, h2⟩
    · rw [if_neg hb] at hok
      by_cases hind : leadingSpaces raw ≤ m.indent
      · rw [if_pos hind] at hok
        exact stepNormal_sys i raw (closeML st m) st' (closeML_sys i st m hml hinv) hok
      · rw [if_neg hind] at hok
        have hst := Except.ok.inj hok
        subst hst
        obtain ⟨hlin, hph, hmlo⟩ := hinv
        refine ⟨fun e he => le_trans (hlin e he) (by omega), hph, ?_⟩
        intro m2 hm2
        simp at hm2
        obtain ⟨e0, hg0, h1, h2⟩ := hmlo m hml
        exact ⟨e0, hg0, h1, h2⟩

theorem runLines_sys : ∀ (ls : List Str) (st : St) (i : Nat) (st' : St),
    sysInv i st → runLines st i ls = .ok st' → sysInv (i + ls.length) st' := by
  intro ls
  induction ls with
  | nil =>
    intro st i st' hinv hok
    have hst := Except.ok.inj hok
    subst hst
    simpa using hinv
  | cons l t ih =>
    intro st i st' hinv hok
    unfold runLines at hok
    cases hstep : stepLine st i l with
    | error e =>
      rw [hstep] at hok
      exact absurd hok (by simp)
    | ok st2 =>
      rw [hstep] at hok
      have h2 := ih st2 (i + 1) st' (stepLine_sys i l st st2 hinv hstep) hok
      have harith : i + 1 + t.length = i + (t.length + 1) := by omega
      rw [harith] at h2
      simpa using h2

/-! ## Preservation of the tracked-entry invariant (C1) -/

theorem closeML_c1Inv (n : Nat) (k : Str) (b : Nat) (st : St) (m : ML)
    (hml : st.ml = some m) (hinv : c1Inv n k b st) : c1Inv n k b (closeML st m) := by
  obtain ⟨hQ, hex, hrest, hmlo⟩ := hinv
  obtain ⟨e0, hg0, hchn, hvn⟩ := hmlo m hml
  have he0mem : e0 ∈ stEntries st := (mem_stEntries _ e0).mpr
    (Or.inl (mem_allEntriesList_of_mem _ _ (mem_entries_of_getLast? _ _ hg0)))
  have hline0 : e0.line ≠ n := by
    intro h
    have h3 := ((hQ e0 he0mem).2 h).2.2
    rw [hchn] at h3
    exact Option.noConfusion h3
  refine ⟨?_, ?_, ?_, ?_⟩
  · intro e he
    rcases (mem_stEntries _ e).mp he with h | ⟨f, hf, hef⟩
    · refine replaceLast_withValue_treeAll _ _ _ e0 hg0 hchn
        (fun e2 h2 => hQ e2 ((mem_stEntries _ e2).mpr (Or.inl h2))) ?_ e h
      constructor
      · rw [line_withValue]
        exact (hQ e0 he0mem).1
      · intro hl
        rw [line_withValue] at hl
        exact absurd hl hline0
    · exact hQ e ((mem_stEntries _ e).mpr (Or.inr ⟨f, hf, hef⟩))
  · obtain ⟨e, he, hp⟩ := hex
    rcases (mem_stEntries _ e).mp he with h | ⟨f, hf, hef⟩
    · obtain ⟨e2, he2, hp2⟩ := replaceLast_withValue_treeEx (fun e => e.line = n)
        (buildContentV1 m.rawLines) _ e0 hg0 hchn hline0 ⟨e, h, hp⟩
      exact ⟨e2, (mem_stEntries _ e2).mpr (Or.inl he2), hp2⟩
    · exact ⟨e, (mem_stEntries _ e).mpr (Or.inr ⟨f, hf, hef⟩), hp⟩
  · intro f hf
    exact hrest f hf
  · intro m2 hm2
    simp [closeML] at hm2

theorem applyKV_c1Inv (n : Nat) (k : Str) (i ind : Nat) (raw k2 : Str) (q : Bool) (vp : Str)
    (p : Frame × List Frame) (hn : n ≤ i)
    (hQtop : ∀ e ∈ allEntriesList p.1.entries, qInv n k i e)
    (hQrest : ∀ g ∈ p.2, ∀ e ∈ allEntriesList g.entries, qInv n k i e)
    (hex : (∃ e ∈ allEntriesList p.1.entries, e.line = n) ∨
      (∃ g ∈ p.2, ∃ e ∈ allEntriesList g.entries, e.line = n))
    (hrest : ∀ g ∈ p.2, ∃ e0, g.entries.getLast? = some e0 ∧
      e0.children = some [] ∧ e0.value = none ∧ e0.line ≠ n) :
    c1Inv n k (i + 1) (applyKV p i ind raw k2 q vp) := by
  have hq1 : ∀ (v : Option Str) (c : Option (List Entry)), (c = none ∨ c = some []) →
      ∀ e ∈ allEntriesOf (Entry.mk k2 q (i + 1) ind raw v c), qInv n k (i + 1) e := by
    intro v c hc e he
    have hsingle : allEntriesOf (Entry.mk k2 q (i + 1) ind raw v c) =
        [Entry.mk k2 q (i + 1) ind raw v c] := by
      rcases hc with hc | hc
      · subst hc
        exact allEntriesOf_of_children_none _ rfl
      · subst hc
        exact allEntriesOf_of_children_nil _ rfl
    rw [hsingle] at he
    simp only [List.mem_singleton] at he
    subst he
    refine ⟨Nat.le_refl _, ?_⟩
    intro hl
    exfalso
    have : (Entry.mk k2 q (i + 1) ind raw v c).line = i + 1 := rfl
    omega
  have htop2 : ∀ (v : Option Str) (c : Option (List Entry)), (c = none ∨ c = some []) →
      ∀ e ∈ allEntriesList (p.1.entries ++ [Entry.mk k2 q (i + 1) ind raw v c]),
        qInv n k (i + 1) e :=
    fun v c hc => treeAll_append_one _ _ _
      (fun e2 h2 => qInv_mono n k i (i + 1) (by omega) e2 (hQtop e2 h2)) (hq1 v c hc)
  have hexl : ∀ (v : Option Str) (c : Option (List Entry)),
      (∃ e ∈ allEntriesList p.1.entries, e.line = n) →
      ∃ e ∈ allEntriesList (p.1.entries ++ [Entry.mk k2 q (i + 1) ind raw v c]),
        e.line = n := by
    rintro v c ⟨e, he, hp⟩
    exact ⟨e, mem_allEntriesList_append_left _ _ e he, hp⟩
  unfold applyKV
  by_cases h1 : vp = ['|']
  · rw [if_pos h1]
    refine ⟨?_, ?_, ?_, ?_⟩
    · intro e he
      rcases (mem_stEntries _ e).mp he with h | ⟨f, hf, hef⟩
      · exact htop2 none none (Or.inl rfl) e h
      · exact qInv_mono n k i (i + 1) (by omega) e (hQrest f hf e hef)
    · rcases hex with h | ⟨g, hg, e, he, hp⟩
      · obtain ⟨e, he, hp⟩ := hexl none none h
        exact ⟨e, (mem_stEntries _ e).mpr (Or.inl he), hp⟩
      · exact ⟨e, (mem_stEntries _ e).mpr (Or.inr ⟨g, hg, he⟩), hp⟩
    · intro f hf
      exact hrest f hf
    · intro m _
      exact ⟨.mk k2 q (i + 1) ind raw none none, List.getLast?_concat _, rfl, rfl⟩
  · rw [if_neg h1]
    by_cases h2 : vp.isEmpty
    · rw [if_pos h2]
      refine ⟨?_, ?_, ?_, ?_⟩
      · intro e he
        rcases (mem_stEntries _ e).mp he with h | ⟨f, hf, hef⟩
        · simp [allEntriesList] at h
        · rcases List.mem_cons.mp hf with h3 | h3
          · subst h3
            exact htop2 none (some []) (Or.inr rfl) e hef
          · exact qInv_mono n k i (i + 1) (by omega) e (hQrest f h3 e hef)
      · rcases hex with h | ⟨g, hg, e, he, hp⟩
        · obtain ⟨e, he, hp⟩ := hexl none (some []) h
          exact ⟨e, (mem_stEntries _ e).mpr (Or.inr
            ⟨⟨p.1.entries ++ [Entry.mk k2 q (i + 1) ind raw none (some [])], p.1.indent⟩,
             List.mem_cons_self _ _, he⟩), hp⟩
        · exact ⟨e, (mem_stEntries _ e).mpr
            (Or.inr ⟨g, List.mem_cons_of_mem _ hg, he⟩), hp⟩
      · intro f hf
        rcases List.mem_cons.mp hf with h3 | h3
        · subst h3
          refine ⟨.mk k2 q (i + 1) ind raw none (some []), List.getLast?_concat _,
            rfl, rfl, ?_⟩
          show i + 1 ≠ n
          omega
        · exact hrest f h3
      · intro m hm
        simp at hm
    · rw [if_neg h2]
      refine ⟨?_, ?_, ?_, ?_⟩
      · intro e he
        rcases (mem_stEntries _ e).mp he with h | ⟨f, hf, hef⟩
        · exact htop2 (some vp) none (Or.inl rfl) e h
        · exact qInv_mono n k i (i + 1) (by omega) e (hQrest f hf e hef)
      · rcases hex with h | ⟨g, hg, e, he, hp⟩
        · obtain ⟨e, he, hp⟩ := hexl (some vp) none h
          exact ⟨e, (mem_stEntries _ e).mpr (Or.inl he), hp⟩
        · exact ⟨e, (mem_stEntries _ e).mpr (Or.inr ⟨g, hg, he⟩), hp⟩
      · intro f hf
        exact hrest f hf
      · intro m hm
        simp at hm

theorem stepNormal_c1Inv (n : Nat) (k : Str) (i : Nat) (raw : Str) (st st' : St)
    (hn : n ≤ i) (hinv : c1Inv n k i st)
    (hok : stepNormal st i raw = .ok st') : c1Inv n k (i + 1) st' := by
  obtain ⟨hQ, hex, hrest, hmlo⟩ := hinv
  unfold stepNormal at hok
  by_cases hb : (trimS raw).isEmpty = true
  · rw [if_pos hb] at hok
    have hst : st = st' := Except.ok.inj hok
    subst hst
    exact ⟨fun e he => qInv_mono n k i (i + 1) (by omega) e (hQ e he), hex, hrest, hmlo⟩
  · rw [if_neg hb] at hok
    by_cases hc : headIs '#' (trimStartS raw) = true
    · rw [if_pos hc] at hok
      have hst : st = st' := Except.ok.inj hok
      subst hst
      exact ⟨fun e he => qInv_mono n k i (i + 1) (by omega) e (hQ e he), hex, hrest, hmlo⟩
    · rw [if_neg hc] at hok
      cases hkv : parseKeyVal raw with
      | error e =>
        rw [hkv] at hok
        exact absurd hok (by simp)
      | ok kqv =>
        obtain ⟨k2, q, vp⟩ := kqv
        rw [hkv] at hok
        have hst : applyKV (popFrames (leadingSpaces raw) st.top st.rest) i
            (leadingSpaces raw) raw k2 q vp = st' := Except.ok.inj hok
        subst hst
        have hpop := popFrames_treeAll (qInv n k i) (leadingSpaces raw) st.rest st.top
          (fun e he => hQ e ((mem_stEntries _ e).mpr (Or.inl he)))
          (fun g hg e he => hQ e ((mem_stEntries _ e).mpr (Or.inr ⟨g, hg, he⟩)))
          (fun g hg e0 h0 cs hcs => by
            obtain ⟨e1, hg1, _, _, hl1⟩ := hrest g hg
            have h0' := h0
            rw [hg1] at h0'
            have he01 : e0 = e1 := (Option.some.inj h0').symm
            subst he01
            constructor
            · show (Entry.withChildren cs e0).line ≤ i
              rw [line_withChildren]
              exact (hQ e0 ((mem_stEntries _ e0).mpr (Or.inr ⟨g, hg,
                mem_allEntriesList_of_mem _ _ (mem_entries_of_getLast? _ _ h0)⟩))).1
            · intro hl
              rw [line_withChildren] at hl
              exact absurd hl hl1)
        have hpex := popFrames_treeEx (fun e => e.line = n) (leadingSpaces raw)
          st.rest st.top
          (by
            obtain ⟨e, he, hp⟩ := hex
            rcases (mem_stEntries _ e).mp he with h | ⟨f, hf, hef⟩
            · exact Or.inl ⟨e, h, hp⟩
            · exact Or.inr ⟨f, hf, e, hef, hp⟩)
          (fun g hg => by
            obtain ⟨e1, hg1, hch1, _, hl1⟩ := hrest g hg
            exact ⟨e1, hg1, hl1, hch1⟩)
        apply applyKV_c1Inv n k i (leadingSpaces raw) raw k2 q vp _ hn hpop.1 hpop.2 hpex
        intro g hg
        exact hrest g ((popFrames_suffix (leadingSpaces raw) st.rest st.top).mem hg)

theorem stepLine_c1Inv (n : Nat) (k : Str) (i : Nat) (raw : Str) (st st' : St)
    (hn : n ≤ i) (hinv : c1Inv n k i st)
    (hok : stepLine st i raw = .ok st') : c1Inv n k (i + 1) st' := by
  unfold stepLine at hok
  cases hml : st.ml with
  | none =>
    rw [hml] at hok
    exact stepNormal_c1Inv n k i raw st st' hn hinv hok
  | some m =>
    rw [hml] at hok
    dsimp only at hok
    obtain ⟨hQ, hex, hrest, hmlo⟩ := hinv
    by_cases hb : (trimS raw).isEmpty = true
    · rw [if_pos hb] at hok
      have hst := Except.ok.inj hok
      subst hst
      refine ⟨fun e he => qInv_mono n k i (i + 1) (by omega) e (hQ e he), hex, hrest, ?_⟩
      intro m2 hm2
      simp at hm2
      obtain ⟨e0, hg0, h1, h2⟩ := hmlo m hml
      exact ⟨e0, hg0, h1, h2⟩
    · rw [if_neg hb] at hok
      by_cases hind : leadingSpaces raw ≤ m.indent
      · rw [if_pos hind] at hok
        exact stepNormal_c1Inv n k i raw (closeML st m) st' hn
          (closeML_c1Inv n k i st m hml ⟨hQ, hex, hrest, hmlo⟩) hok
      · rw [if_neg hind] at hok
        have hst := Except.ok.inj hok
        subst hst
        refine ⟨fun e he => qInv_mono n k i (i + 1) (by omega) e (hQ e he), hex, hrest, ?_⟩
        intro m2 hm2
        simp at hm2
        obtain ⟨e0, hg0, h1, h2⟩ := hmlo m hml
        exact ⟨e0, hg0, h1, h2⟩

theorem runLines_c1Inv (n : Nat) (k : Str) :
    ∀ (ls : List Str) (st : St) (i : Nat) (st' : St),
    n ≤ i → c1Inv n k i st → runLines st i ls = .ok st' →
    c1Inv n k (i + ls.length) st' := by
  intro ls
  induction ls with
  | nil =>
    intro st i st' _ hinv hok
    have hst := Except.ok.inj hok
    subst hst
    simpa using hinv
  | cons l t ih =>
    intro st i st' hn hinv hok
    unfold runLines at hok
    cases hstep : stepLine st i l with
    | error e =>
      rw [hstep] at hok
      exact absurd hok (by simp)
    | ok st2 =>
      rw [hstep] at hok
      have h2 := ih st2 (i + 1) st' (by omega)
        (stepLine_c1Inv n k i l st st2 hn hinv hstep) hok
      have harith : i + 1 + t.length = i + (t.length + 1) := by omega
      rw [harith] at h2
      simpa using h2

theorem finalizeSt_c1 (n : Nat) (k : Str) (b : Nat) (st : St) (hinv : c1Inv n k b st) :
    (∀ e ∈ allEntriesList (finalizeSt st), e.line = n →
      e.key = k ∧ e.value = none ∧ e.children = some []) ∧
    (∃ e ∈ allEntriesList (finalizeSt st), e.line = n) := by
  have hseal : ∀ st2 : St, c1Inv n k b st2 →
      (∀ e ∈ allEntriesList (sealAll st2.top st2.rest), e.line = n →
        e.key = k ∧ e.value = none ∧ e.children = some []) ∧
      (∃ e ∈ allEntriesList (sealAll st2.top st2.rest), e.line = n) := by
    intro st2 hinv2
    obtain ⟨hQ, hex, hrest, _⟩ := hinv2
    constructor
    · intro e he hl
      have hq := sealAll_treeAll (qInv n k b) st2.rest st2.top
        (fun e2 h2 => hQ e2 ((mem_stEntries _ e2).mpr (Or.inl h2)))
        (fun g hg e2 h2 => hQ e2 ((mem_stEntries _ e2).mpr (Or.inr ⟨g, hg, h2⟩)))
        (fun g hg e0 h0 cs hcs => by
          obtain ⟨e1, hg1, _, _, hl1⟩ := hrest g hg
          have h0' := h0
          rw [hg1] at h0'
          have he01 : e0 = e1 := (Option.some.inj h0').symm
          subst he01
          constructor
          · show (Entry.withChildren cs e0).line ≤ b
            rw [line_withChildren]
            exact (hQ e0 ((mem_stEntries _ e0).mpr (Or.inr ⟨g, hg,
              mem_allEntriesList_of_mem _ _ (mem_entries_of_getLast? _ _ h0)⟩))).1
          · intro hl2
            rw [line_withChildren] at hl2
            exact absurd hl2 hl1)
        e he
      exact hq.2 hl
    · apply sealAll_treeEx (fun e => e.line = n) st2.rest st2.top
      · obtain ⟨e, he, hp⟩ := hex
        rcases (mem_stEntries _ e).mp he with h | ⟨f, hf, hef⟩
        · exact Or.inl ⟨e, h, hp⟩
        · exact Or.inr ⟨f, hf, e, hef, hp⟩
      · intro g hg
        obtain ⟨e1, hg1, hch1, _, hl1⟩ := hrest g hg
        exact ⟨e1, hg1, hl1, hch1⟩
  unfold finalizeSt
  cases hml : st.ml with
  | none => exact hseal st hinv
  | some m => exact hseal (closeML st m) (closeML_c1Inv n k b st m hml hinv)

theorem stepNormal_congr_pop (st1 st2 : St) (i : Nat) (raw : Str)
    (hb : (trimS raw).isEmpty = false)
    (hc : headIs '#' (trimStartS raw) = false)
    (hpop : popFrames (leadingSpaces raw) st1.top st1.rest =
            popFrames (leadingSpaces raw) st2.top st2.rest) :
    stepNormal st1 i raw = stepNormal st2 i raw := by
  unfold stepNormal
  rw [hpop]
  simp only [hb, hc, Bool.false_eq_true, if_false]

theorem popFrames_fresh (ind d : Nat) (f1 : Frame) (r : List Frame) (e0 : Entry)
    (hg0 : f1.entries.getLast? = some e0) (hch : e0.children = some [])
    (hd : d < ind + 1) :
    popFrames d (⟨[], ind + 1⟩ : Frame) (f1 :: r) = popFrames d f1 r := by
  show (if d < ind + 1 then popFrames d (sealEntries [] f1) r
        else ((⟨[], ind + 1⟩ : Frame), f1 :: r)) = popFrames d f1 r
  rw [if_pos hd, sealEntries_nil_of_placeholder f1 e0 hg0 hch]

/-- Collapsing the fresh, forever-empty frame opened by an empty-value key:
when no following line is indented past the key, running the remaining lines
from the state with the fresh frame on top is indistinguishable (after
finalisation) from running them with the frame already written back into its
placeholder entry. -/
theorem fresh_frame_collapse (ind : Nat) (f1 : Frame) (r : List Frame) (e0 : Entry)
    (hg0 : f1.entries.getLast? = some e0) (hch : e0.children = some []) :
    ∀ (ls : List Str) (i : Nat), (∀ l ∈ ls, leadingSpaces l ≤ ind) →
      Except.map finalizeSt (runLines ⟨⟨[], ind + 1⟩, f1 :: r, none⟩ i ls) =
      Except.map finalizeSt (runLines ⟨f1, r, none⟩ i ls) := by
  intro ls
  induction ls with
  | nil =>
    intro i _
    show Except.map finalizeSt (.ok ⟨⟨[], ind + 1⟩, f1 :: r, none⟩) =
      Except.map finalizeSt (.ok ⟨f1, r, none⟩)
    have h1 : finalizeSt ⟨⟨[], ind + 1⟩, f1 :: r, none⟩ = finalizeSt ⟨f1, r, none⟩ := by
      show sealAll (sealEntries [] f1) r = sealAll f1 r
      rw [sealEntries_nil_of_placeholder f1 e0 hg0 hch]
    show Except.ok (finalizeSt ⟨⟨[], ind + 1⟩, f1 :: r, none⟩) =
      Except.ok (finalizeSt ⟨f1, r, none⟩)
    rw [h1]
  | cons l t ih =>
    intro i hle
    have hl := hle l (by simp)
    by_cases hb : (trimS l).isEmpty = true
    · have e1 : stepLine ⟨⟨[], ind + 1⟩, f1 :: r, none⟩ i l =
          .ok ⟨⟨[], ind + 1⟩, f1 :: r, none⟩ := by
        show stepNormal ⟨⟨[], ind + 1⟩, f1 :: r, none⟩ i l = _
        unfold stepNormal
        rw [if_pos hb]
      have e2 : stepLine ⟨f1, r, none⟩ i l = .ok ⟨f1, r, none⟩ := by
        show stepNormal ⟨f1, r, none⟩ i l = _
        unfold stepNormal
        rw [if_pos hb]
      show Except.map finalizeSt
          (match stepLine ⟨⟨[], ind + 1⟩, f1 :: r, none⟩ i l with
           | Except.error e => Except.error e
           | Except.ok st2 => runLines st2 (i + 1) t) =
        Except.map finalizeSt
          (match stepLine ⟨f1, r, none⟩ i l with
           | Except.error e => Except.error e
           | Except.ok st2 => runLines st2 (i + 1) t)
      rw [e1, e2]
      exact ih (i + 1) (fun l2 h2 => hle l2 (List.mem_cons_of_mem l h2))
    · by_cases hc : headIs '#' (trimStartS l) = true
      · have e1 : stepLine ⟨⟨[], ind + 1⟩, f1 :: r, none⟩ i l =
            .ok ⟨⟨[], ind + 1⟩, f1 :: r, none⟩ := by
          show stepNormal ⟨⟨[], ind + 1⟩, f1 :: r, none⟩ i l = _
          unfold stepNormal
          rw [if_neg (by simp [hb]), if_pos hc]
        have e2 : stepLine ⟨f1, r, none⟩ i l = .ok ⟨f1, r, none⟩ := by
          show stepNormal ⟨f1, r, none⟩ i l = _
          unfold stepNormal
          rw [if_neg (by simp [hb]), if_pos hc]
        show Except.map finalizeSt
            (match stepLine ⟨⟨[], ind + 1⟩, f1 :: r, none⟩ i l with
             | Except.error e => Except.error e
             | Except.ok st2 => runLines st2 (i + 1) t) =
          Except.map finalizeSt
            (match stepLine ⟨f1, r, none⟩ i l with
             | Except.error e => Except.error e
             | Except.ok st2 => runLines st2 (i + 1) t)
        rw [e1, e2]
        exact ih (i + 1) (fun l2 h2 => hle l2 (List.mem_cons_of_mem l h2))
      · have hpop : popFrames (leadingSpaces l) (⟨[], ind + 1⟩ : Frame) (f1 :: r) =
            popFrames (leadingSpaces l) f1 r :=
          popFrames_fresh ind (leadingSpaces l) f1 r e0 hg0 hch (by omega)
        have hb' : (trimS l).isEmpty = false := by simpa using hb
        have hc' : headIs '#' (trimStartS l) = false := by simpa using hc
        have hsame : stepLine ⟨⟨[], ind + 1⟩, f1 :: r, none⟩ i l =
            stepLine ⟨f1, r, none⟩ i l :=
          stepNormal_congr_pop ⟨⟨[], ind + 1⟩, f1 :: r, none⟩ ⟨f1, r, none⟩ i l hb' hc' hpop
        show Except.map finalizeSt
            (match stepLine ⟨⟨[], ind + 1⟩, f1 :: r, none⟩ i l with
             | Except.error e => Except.error e
             | Except.ok st2 => runLines st2 (i + 1) t) =
          Except.map finalizeSt
            (match stepLine ⟨f1, r, none⟩ i l with
             | Except.error e => Except.error e
             | Except.ok st2 => runLines st2 (i + 1) t)
        rw [hsame]

theorem stepNormal_empty_value (st : St) (i : Nat) (raw : Str) (k : Str) (q : Bool)
    (hb : (trimS raw).isEmpty = false)
    (hc : headIs '#' (trimStartS raw) = false)
    (hkv : parseKeyVal raw = .ok (k, q, [])) :
    stepNormal st i raw = .ok
      ⟨⟨[], leadingSpaces raw + 1⟩,
       ⟨(popFrames (leadingSpaces raw) st.top st.rest).1.entries ++
          [.mk k q (i + 1) (leadingSpaces raw) raw none (some [])],
        (popFrames (leadingSpaces raw) st.top st.rest).1.indent⟩ ::
         (popFrames (leadingSpaces raw) st.top st.rest).2,
       none⟩ := by
  unfold stepNormal applyKV
  simp only [hb, hc, hkv, Bool.false_eq_true, if_false]
  rfl

/-- C1 (amended): for every V1 input in which a key line has an empty value
string and no subsequent line is more-indented than it, `parseNyml` records
that entry as an empty children container — the entry has `children = []` and
no `value` (so the mapping value is the empty object `{}`), not an
empty-string scalar.  The key line is line `pre.length + 1`; `parseKeyVal`
returning an empty value part covers both plain and quoted keys. -/
theorem c1_empty_value_amended (pre post : List Str) (kline : Str) (st0 : St)
    (d : Document) (k : Str) (q : Bool)
    (hnl : ∀ l ∈ pre ++ kline :: post, ('\n') ∉ l)
    (hpre : runLines initSt 0 pre = .ok st0)
    (hml : st0.ml = none)
    (hb : (trimS kline).isEmpty = false)
    (hc : headIs '#' (trimStartS kline) = false)
    (hkv : parseKeyVal kline = .ok (k, q, []))
    (hpost : ∀ l ∈ post, leadingSpaces l ≤ leadingSpaces kline)
    (hok : parseNymlEntries (joinNl (pre ++ kline :: post)) = .ok d) :
    (∀ e ∈ allEntriesList d.entries, e.line = pre.length + 1 →
      e.key = k ∧ e.value = none ∧ e.children = some []) ∧
    (∃ e ∈ allEntriesList d.entries, e.line = pre.length + 1 ∧
      e.key = k ∧ e.value = none ∧ e.children = some []) := by
  have hsys0 : sysInv pre.length st0 := by
    have h0 : sysInv 0 initSt := by
      refine ⟨?_, ?_, ?_⟩
      · intro e he
        simp [stEntries, initSt, allEntriesList] at he
      · intro f hf
        simp [initSt] at hf
      · intro m hm
        simp [initSt] at hm
    have := runLines_sys pre initSt 0 st0 h0 hpre
    simpa using this
  set n := pre.length + 1 with hn
  set ind := leadingSpaces kline with hind
  set pp := popFrames ind st0.top st0.rest with hpp
  set ourE : Entry := .mk k q n ind kline none (some []) with hourE
  set f1 : Frame := ⟨pp.1.entries ++ [ourE], pp.1.indent⟩ with hf1
  have hstep : stepLine st0 pre.length kline = .ok ⟨⟨[], ind + 1⟩, f1 :: pp.2, none⟩ := by
    show (match st0.ml with
          | some m =>
            if (trimS kline).isEmpty = true then
              Except.ok { st0 with ml := some ⟨m.indent, m.rawLines ++ [[]]⟩ }
            else if leadingSpaces kline ≤ m.indent then
              stepNormal (closeML st0 m) pre.length kline
            else Except.ok { st0 with ml := some ⟨m.indent, m.rawLines ++ [kline]⟩ }
          | none => stepNormal st0 pre.length kline) = _
    rw [hml]
    exact stepNormal_empty_value st0 pre.length kline k q hb hc hkv
  -- the fresh frame collapses into its placeholder
  have hlast1 : f1.entries.getLast? = some ourE := List.getLast?_concat _
  have hchE : ourE.children = some [] := rfl
  have hcollapse := fresh_frame_collapse ind f1 pp.2 ourE hlast1 hchE post (pre.length + 1)
    (fun l hl => hpost l hl)
  -- invariant at the collapsed state
  have hpopAll := popFrames_treeAll (fun e => e.line ≤ pre.length) ind st0.rest st0.top
    (fun e he => hsys0.1 e ((mem_stEntries _ e).mpr (Or.inl he)))
    (fun g hg e he => hsys0.1 e ((mem_stEntries _ e).mpr (Or.inr ⟨g, hg, he⟩)))
    (fun g hg e0 h0 cs hcs => by
      show (Entry.withChildren cs e0).line ≤ pre.length
      rw [line_withChildren]
      exact hsys0.1 e0 ((mem_stEntries _ e0).mpr (Or.inr ⟨g, hg,
        mem_allEntriesList_of_mem _ _ (mem_entries_of_getLast? _ _ h0)⟩)))
  have hinv1 : c1Inv n k n ⟨f1, pp.2, none⟩ := by
    refine ⟨?_, ?_, ?_, ?_⟩
    · intro e he
      rcases (mem_stEntries _ e).mp he with h | ⟨f, hf, hef⟩
      · have hf1e : e ∈ allEntriesList (pp.1.entries ++ [ourE]) := h
        rw [allEntriesList_append, allEntriesList_single] at hf1e
        rcases List.mem_append.mp hf1e with h2 | h2
        · have := hpopAll.1 e h2
          exact ⟨by omega, fun hl => absurd hl (by omega)⟩
        · rw [allEntriesOf_of_children_nil ourE hchE] at h2
          simp only [List.mem_singleton] at h2
          subst h2
          exact ⟨Nat.le_refl _, fun _ => ⟨rfl, rfl, rfl⟩⟩
      · have := hpopAll.2 f hf e hef
        exact ⟨by omega, fun hl => absurd hl (by omega)⟩
    · refine ⟨ourE, (mem_stEntries _ ourE).mpr (Or.inl ?_), rfl⟩
      rw [allEntriesList_append, allEntriesList_single]
      exact List.mem_append_right _
        (by rw [allEntriesOf_of_children_nil ourE hchE]; simp)
    · intro f hf
      have hfrest : f ∈ st0.rest := (popFrames_suffix ind st0.rest st0.top).mem hf
      obtain ⟨e1, hg1, hch1, hv1⟩ := hsys0.2.1 f hfrest
      refine ⟨e1, hg1, hch1, hv1, ?_⟩
      have := hsys0.1 e1 ((mem_stEntries _ e1).mpr (Or.inr ⟨f, hfrest,
        mem_allEntriesList_of_mem _ _ (mem_entries_of_getLast? _ _ hg1)⟩))
      omega
    · intro m hm
      simp at hm
  -- put the pieces of the whole parse together
  have hsplit : splitNl (joinNl (pre ++ kline :: post)) = pre ++ kline :: post :=
    splitNl_joinNl _ (by simp) hnl
  have hrun : parseCore (joinNl (pre ++ kline :: post)) =
      Except.map finalizeSt (runLines ⟨f1, pp.2, none⟩ (pre.length + 1) post) := by
    unfold parseCore
    rw [hsplit, runLines_append pre initSt 0 (kline :: post), hpre]
    show Except.map finalizeSt (runLines st0 (0 + pre.length) (kline :: post)) = _
    have h00 : 0 + pre.length = pre.length := by omega
    rw [h00]
    show Except.map finalizeSt
        (match stepLine st0 pre.length kline with
         | Except.error e => Except.error e
         | Except.ok st2 => runLines st2 (pre.length + 1) post) = _
    rw [hstep]
    exact hcollapse
  cases hfin : runLines ⟨f1, pp.2, none⟩ (pre.length + 1) post with
  | error e =>
    exfalso
    unfold parseNymlEntries at hok
    rw [hrun, hfin] at hok
    simp [Except.map] at hok
  | ok stF =>
    have hinvF : c1Inv n k (pre.length + 1 + post.length) stF :=
      runLines_c1Inv n k post ⟨f1, pp.2, none⟩ (pre.length + 1) stF (by omega) hinv1 hfin
    have hfc := finalizeSt_c1 n k (pre.length + 1 + post.length) stF hinvF
    have hd : d.entries = finalizeSt stF := by
      unfold parseNymlEntries at hok
      rw [hrun, hfin] at hok
      simp [Except.map] at hok
      rw [← hok]
    rw [hd]
    refine ⟨hfc.1, ?_⟩
    obtain ⟨e, he, hp⟩ := hfc.2
    obtain ⟨h1, h2, h3⟩ := hfc.1 e he hp
    exact ⟨e, he, hp, h1, h2, h3⟩

/-- Concrete instance of the amended C1 theorem: input `"a:\nb: 1"` — key
line `a:` with an empty value and a following sibling at the same indent —
yields an entry for `a` on line 1 with `children = []` and no scalar value. -/
theorem c1_empty_value_amended_witness :
    (∀ e ∈ allEntriesList
        (Document.mk [Entry.mk (str "a") false 1 0 (str "a:") none (some []),
          Entry.mk (str "b") false 2 0 (str "b: 1") (some (str "1")) none]).entries,
      e.line = ([] : List Str).length + 1 →
        e.key = str "a" ∧ e.value = none ∧ e.children = some []) ∧
    (∃ e ∈ allEntriesList
        (Document.mk [Entry.mk (str "a") false 1 0 (str "a:") none (some []),
          Entry.mk (str "b") false 2 0 (str "b: 1") (some (str "1")) none]).entries,
      e.line = ([] : List Str).length + 1 ∧
        e.key = str "a" ∧ e.value = none ∧ e.children = some []) :=
  c1_empty_value_amended [] [str "b: 1"] (str "a:") initSt
    (Document.mk [Entry.mk (str "a") false 1 0 (str "a:") none (some []),
      Entry.mk (str "b") false 2 0 (str "b: 1") (some (str "1")) none])
    (str "a") false
    (by decide) rfl rfl rfl rfl rfl (by decide) rfl


/-! ## V2: shape of one loop iteration -/

theorem stepV2_blank (top : VFrame) (rest : List VFrame) (line : Str) (more : List Str)
    (hb : (trimS line).isEmpty = true) :
    stepV2 top rest line more = (top, rest, more) := by
  unfold stepV2
  rw [if_pos hb]

theorem stepV2_nokv (top : VFrame) (rest : List VFrame) (line : Str) (more : List Str)
    (hb : (trimS line).isEmpty = false)
    (hkv : parseKeyValue (trimS line) = none) :
    stepV2 top rest line more =
      if ((popV2 (leadingSpacesV2 line : Int) top rest).2).isEmpty then
        ((popV2 (leadingSpacesV2 line : Int) top rest).1,
         (popV2 (leadingSpacesV2 line : Int) top rest).2, more)
      else
        ({ (popV2 (leadingSpacesV2 line : Int) top rest).1 with
            items := (popV2 (leadingSpacesV2 line : Int) top rest).1.items ++
              [.pstr (trimS line)] },
         (popV2 (leadingSpacesV2 line : Int) top rest).2, more) := by
  unfold stepV2
  simp only [hb, Bool.false_eq_true, if_false, hkv]

theorem stepV2_pipe (top : VFrame) (rest : List VFrame) (line : Str) (more : List Str)
    (k : Str) (hb : (trimS line).isEmpty = false)
    (hkv : parseKeyValue (trimS line) = some (k, ['|'])) :
    stepV2 top rest line more =
      ({ (popV2 (leadingSpacesV2 line : Int) top rest).1 with
          items := (popV2 (leadingSpacesV2 line : Int) top rest).1.items ++
            [.kstr k (buildContentV2 (collectRaw (leadingSpacesV2 line : Int) more).1)] },
       (popV2 (leadingSpacesV2 line : Int) top rest).2,
       (collectRaw (leadingSpacesV2 line : Int) more).2) := by
  unfold stepV2
  simp only [hb, Bool.false_eq_true, if_false, hkv]
  rfl

theorem stepV2_empty_value (top : VFrame) (rest : List VFrame) (line : Str) (more : List Str)
    (k : Str) (hb : (trimS line).isEmpty = false)
    (hkv : parseKeyValue (trimS line) = some (k, [])) :
    stepV2 top rest line more =
      (⟨[], (leadingSpacesV2 line : Int)⟩,
       { (popV2 (leadingSpacesV2 line : Int) top rest).1 with
           items := (popV2 (leadingSpacesV2 line : Int) top rest).1.items ++
             [.klist k []] } :: (popV2 (leadingSpacesV2 line : Int) top rest).2,
       more) := by
  unfold stepV2
  simp only [hb, Bool.false_eq_true, if_false, hkv]
  rfl

theorem stepV2_scalar (top : VFrame) (rest : List VFrame) (line : Str) (more : List Str)
    (k v : Str) (hb : (trimS line).isEmpty = false)
    (hkv : parseKeyValue (trimS line) = some (k, v))
    (hv : ¬ v = ['|']) (hve : v.isEmpty = false) :
    stepV2 top rest line more =
      ({ (popV2 (leadingSpacesV2 line : Int) top rest).1 with
          items := (popV2 (leadingSpacesV2 line : Int) top rest).1.items ++
            [.kstr k v] },
       (popV2 (leadingSpacesV2 line : Int) top rest).2, more) := by
  unfold stepV2
  simp only [hb, Bool.false_eq_true, if_false, hkv]
  rw [if_neg hv]
  simp only [hve, Bool.false_eq_true, if_false]

theorem loopV2_succ (fuel : Nat) (top : VFrame) (rest : List VFrame)
    (line : Str) (more : List Str) :
    loopV2 (fuel + 1) top rest (line :: more) =
    loopV2 fuel (stepV2 top rest line more).1 (stepV2 top rest line more).2.1
      (stepV2 top rest line more).2.2 := by
  by_cases hb : (trimS line).isEmpty = true
  · rw [stepV2_blank top rest line more hb]
    conv_lhs => unfold loopV2
    rw [if_pos hb]
  · have hb' : (trimS line).isEmpty = false := by simpa using hb
    cases hkv : parseKeyValue (trimS line) with
    | none =>
      rw [stepV2_nokv top rest line more hb' hkv]
      conv_lhs => unfold loopV2
      simp only [hb', Bool.false_eq_true, if_false, hkv]
      by_cases hp : ((popV2 (leadingSpacesV2 line : Int) top rest).2).isEmpty = true
      · rw [if_pos hp, if_pos hp]
      · rw [if_neg hp, if_neg hp]
    | some kv =>
      obtain ⟨k, v⟩ := kv
      by_cases hv : v = ['|']
      · subst hv
        rw [stepV2_pipe top rest line more k hb' hkv]
        conv_lhs => unfold loopV2
        simp only [hb', Bool.false_eq_true, if_false, hkv]
        rfl
      · by_cases hve : v.isEmpty = true
        · have hv0 : v = [] := by
            cases v with
            | nil => rfl
            | cons a t => simp at hve
          subst hv0
          rw [stepV2_empty_value top rest line more k hb' hkv]
          conv_lhs => unfold loopV2
          simp only [hb', Bool.false_eq_true, if_false, hkv]
          rfl
        · have hve' : v.isEmpty = false := by simpa using hve
          rw [stepV2_scalar top rest line more k v hb' hkv hv hve']
          conv_lhs => unfold loopV2
          simp only [hb', Bool.false_eq_true, if_false, hkv]
          rw [if_neg hv]
          simp only [hve', Bool.false_eq_true, if_false]

/-! ## V2: fuel irrelevance and reachability -/

theorem collectRaw_snd_length (b : Int) (ls : List Str) :
    (collectRaw b ls).2.length ≤ ls.length := by
  induction ls with
  | nil => exact Nat.le_refl _
  | cons l t ih =>
    unfold collectRaw
    by_cases h1 : (trimS l).isEmpty = true
    · rw [if_pos h1]
      exact Nat.le_succ_of_le ih
    · rw [if_neg h1]
      by_cases h2 : (leadingSpacesV2 l : Int) ≤ b
      · rw [if_pos h2]
      · rw [if_neg h2]
        exact Nat.le_succ_of_le ih

theorem stepV2_lines_length (top : VFrame) (rest : List VFrame) (line : Str)
    (more : List Str) :
    (stepV2 top rest line more).2.2.length ≤ more.length := by
  by_cases hb : (trimS line).isEmpty = true
  · rw [stepV2_blank top rest line more hb]
  · have hb' : (trimS line).isEmpty = false := by simpa using hb
    cases hkv : parseKeyValue (trimS line) with
    | none =>
      rw [stepV2_nokv top rest line more hb' hkv]
      by_cases hp : ((popV2 (leadingSpacesV2 line : Int) top rest).2).isEmpty = true
      · rw [if_pos hp]
      · rw [if_neg hp]
    | some kv =>
      obtain ⟨k, v⟩ := kv
      by_cases hv : v = ['|']
      · subst hv
        rw [stepV2_pipe top rest line more k hb' hkv]
        exact collectRaw_snd_length _ more
      · by_cases hve : v.isEmpty = true
        · have hv0 : v = [] := by
            cases v with
            | nil => rfl
            | cons a t => simp at hve
          subst hv0
          rw [stepV2_empty_value top rest line more k hb' hkv]
        · have hve' : v.isEmpty = false := by simpa using hve
          rw [stepV2_scalar top rest line more k v hb' hkv hv hve']

theorem loopV2_fuel_ge (n : Nat) : ∀ (ls : List Str), ls.length ≤ n →
    ∀ (f1 f2 : Nat) (top : VFrame) (rest : List VFrame),
      ls.length ≤ f1 → ls.length ≤ f2 →
      loopV2 f1 top rest ls = loopV2 f2 top rest ls := by
  induction n with
  | zero =>
    intro ls hls f1 f2 top rest _ _
    have h0 : ls = [] := List.eq_nil_of_length_eq_zero (Nat.le_zero.mp hls)
    subst h0
    cases f1 <;> cases f2 <;> rfl
  | succ n ih =>
    intro ls hls f1 f2 top rest h1 h2
    cases ls with
    | nil => cases f1 <;> cases f2 <;> rfl
    | cons l more =>
      cases f1 with
      | zero => simp at h1
      | succ g1 =>
        cases f2 with
        | zero => simp at h2
        | succ g2 =>
          rw [loopV2_succ, loopV2_succ]
          have hlen := stepV2_lines_length top rest l more
          have hml : more.length ≤ n := by
            have hc : more.length + 1 ≤ n + 1 := hls
            omega
          have hg1 : (stepV2 top rest l more).2.2.length ≤ g1 := by
            have hc : more.length + 1 ≤ g1 + 1 := h1
            omega
          have hg2 : (stepV2 top rest l more).2.2.length ≤ g2 := by
            have hc : more.length + 1 ≤ g2 + 1 := h2
            omega
          exact ih _ (Nat.le_trans hlen hml) g1 g2 _ _ hg1 hg2

theorem loopV2_reach_aux {a b : VFrame × List VFrame × List Str} (h : ReachV2 a b) :
    loopV2 (a.2.2.length + 1) a.1 a.2.1 a.2.2 =
    loopV2 (b.2.2.length + 1) b.1 b.2.1 b.2.2 := by
  induction h with
  | refl c => rfl
  | step top rest line more c hr ih =>
    have hlen := stepV2_lines_length top rest line more
    have h1 : loopV2 ((line :: more).length + 1) top rest (line :: more) =
        loopV2 ((line :: more).length) (stepV2 top rest line more).1
          (stepV2 top rest line more).2.1 (stepV2 top rest line more).2.2 :=
      loopV2_succ ((line :: more).length) top rest line more
    have h2 : loopV2 ((line :: more).length) (stepV2 top rest line more).1
          (stepV2 top rest line more).2.1 (stepV2 top rest line more).2.2 =
        loopV2 ((stepV2 top rest line more).2.2.length + 1) (stepV2 top rest line more).1
          (stepV2 top rest line more).2.1 (stepV2 top rest line more).2.2 :=
      loopV2_fuel_ge ((stepV2 top rest line more).2.2.length)
        ((stepV2 top rest line more).2.2) (Nat.le_refl _)
        ((line :: more).length) ((stepV2 top rest line more).2.2.length + 1)
        (stepV2 top rest line more).1 ((stepV2 top rest line more).2.1)
        (Nat.le_trans hlen (Nat.le_succ _)) (Nat.le_succ _)
    exact h1.trans (h2.trans ih)

theorem loopV2_of_reach (t1 : VFrame) (r1 : List VFrame) (ls1 : List Str)
    (t2 : VFrame) (r2 : List VFrame) (ls2 : List Str)
    (h : ReachV2 (t1, r1, ls1) (t2, r2, ls2)) :
    loopV2 (ls1.length + 1) t1 r1 ls1 = loopV2 (ls2.length + 1) t2 r2 ls2 :=
  loopV2_reach_aux h

/-! ## V2: stack-shape and survival invariants -/

theorem hasEmptyKlist_append (k : Str) (l1 l2 : List Node) :
    hasEmptyKlist k (l1 ++ l2) = (hasEmptyKlist k l1 || hasEmptyKlist k l2) := by
  induction l1 with
  | nil => simp [hasEmptyKlist]
  | cons n t ih =>
    show (hasEmptyKnode k n || hasEmptyKlist k (t ++ l2)) =
      ((hasEmptyKnode k n || hasEmptyKlist k t) || hasEmptyKlist k l2)
    rw [ih, Bool.or_assoc]

theorem replaceLastNode_eq_dropLast (f : Node → Node) :
    ∀ (l : List Node) (n : Node), l.getLast? = some n →
      replaceLastNode f l = l.dropLast ++ [f n] := by
  intro l
  induction l with
  | nil => intro n h; simp at h
  | cons a t ih =>
    intro n h
    cases t with
    | nil =>
      simp only [List.getLast?_singleton] at h
      have ha : a = n := Option.some.inj h
      subst ha
      rfl
    | cons b u =>
      rw [List.getLast?_cons_cons] at h
      show a :: replaceLastNode f (b :: u) = (a :: b :: u).dropLast ++ [f n]
      rw [ih n h]
      rfl

theorem replaceLastNode_id (f : Node → Node) :
    ∀ (l : List Node) (n : Node), l.getLast? = some n → f n = n →
      replaceLastNode f l = l := by
  intro l
  induction l with
  | nil => intro n h _; simp at h
  | cons a t ih =>
    intro n h hf
    cases t with
    | nil =>
      simp only [List.getLast?_singleton] at h
      have ha : a = n := Option.some.inj h
      have hfa : f a = a := by rw [ha, hf]
      show [f a] = [a]
      rw [hfa]
    | cons b u =>
      rw [List.getLast?_cons_cons] at h
      show a :: replaceLastNode f (b :: u) = a :: b :: u
      rw [ih n h hf]

theorem sealNodes_nil_of_klist (k : Str) (g : VFrame)
    (hg : g.items.getLast? = some (.klist k [])) : sealNodes [] g = g := by
  cases g with
  | mk items base =>
    have h1 : replaceLastNode (fun n => match n with
        | Node.klist k2 _ => Node.klist k2 ([] : List Node)
        | n => n) items = items :=
      replaceLastNode_id _ items (.klist k []) hg rfl
    show VFrame.mk (replaceLastNode (fun n => match n with
        | Node.klist k2 _ => Node.klist k2 ([] : List Node)
        | n => n) items) base = VFrame.mk items base
    rw [h1]

theorem sealNodes_lastKlist_items (items : List Node) (g : VFrame) (k2 : Str)
    (vs : List Node) (hg : g.items.getLast? = some (.klist k2 vs)) :
    (sealNodes items g).items = g.items.dropLast ++ [.klist k2 items] := by
  show replaceLastNode (fun n => match n with
      | Node.klist k3 _ => Node.klist k3 items
      | n => n) g.items = _
  rw [replaceLastNode_eq_dropLast _ g.items _ hg]

theorem sealNodes_hasEmpty_of_items (k : Str) (items : List Node) (g : VFrame)
    (hlk : lastKlist g) (h : hasEmptyKlist k items = true) :
    hasEmptyKlist k (sealNodes items g).items = true := by
  obtain ⟨k2, vs, hg⟩ := hlk
  rw [sealNodes_lastKlist_items items g k2 vs hg, hasEmptyKlist_append]
  have h1 : hasEmptyKlist k [Node.klist k2 items] = true := by
    show (hasEmptyKnode k (Node.klist k2 items) || hasEmptyKlist k []) = true
    have h2 : hasEmptyKnode k (Node.klist k2 items) = true := by
      show ((decide (k2 = k) && items.isEmpty) || hasEmptyKlist k items) = true
      rw [h, Bool.or_true]
    rw [h2]
    rfl
  rw [h1, Bool.or_true]

theorem sealNodes_hasEmpty_of_dropLast (k : Str) (items : List Node) (g : VFrame)
    (hlk : lastKlist g) (h : hasEmptyKlist k g.items.dropLast = true) :
    hasEmptyKlist k (sealNodes items g).items = true := by
  obtain ⟨k2, vs, hg⟩ := hlk
  rw [sealNodes_lastKlist_items items g k2 vs hg, hasEmptyKlist_append, h, Bool.true_or]

theorem popV2_suffix (ind : Int) :
    ∀ (rest : List VFrame) (f : VFrame), (popV2 ind f rest).2 <:+ rest := by
  intro rest
  induction rest with
  | nil => intro f; simp [popV2]
  | cons g t ih =>
    intro f
    unfold popV2
    by_cases h : ind ≤ f.base
    · rw [if_pos h]
      exact (ih (sealNodes f.items g)).trans (List.suffix_cons g t)
    · rw [if_neg h]

theorem popV2_stackOk (ind : Int) (rest : List VFrame) (f : VFrame)
    (hok : stackOkV2 rest) : stackOkV2 (popV2 ind f rest).2 :=
  fun g hg => hok g ((popV2_suffix ind rest f).mem hg)

theorem popV2_c2Inv (k : Str) (ind : Int) :
    ∀ (rest : List VFrame) (f : VFrame), stackOkV2 rest → c2Inv k f rest →
      c2Inv k (popV2 ind f rest).1 (popV2 ind f rest).2 := by
  intro rest
  induction rest with
  | nil =>
    intro f _ hinv
    rcases hinv with h | ⟨g, hg, _⟩
    · exact Or.inl h
    · exact absurd hg (List.not_mem_nil g)
  | cons g t ih =>
    intro f hok hinv
    unfold popV2
    by_cases h : ind ≤ f.base
    · rw [if_pos h]
      apply ih (sealNodes f.items g) (fun g2 hg2 => hok g2 (List.mem_cons_of_mem g hg2))
      rcases hinv with hA | ⟨g3, hg3, hD⟩
      · exact Or.inl (sealNodes_hasEmpty_of_items k f.items g (hok g (List.mem_cons_self g t)) hA)
      · rcases List.mem_cons.mp hg3 with h3 | h3
        · rw [h3] at hD
          exact Or.inl (sealNodes_hasEmpty_of_dropLast k f.items g (hok g (List.mem_cons_self g t)) hD)
        · exact Or.inr ⟨g3, h3, hD⟩
    · rw [if_neg h]
      exact hinv

theorem stepV2_stackOk (top : VFrame) (rest : List VFrame) (line : Str) (more : List Str)
    (hok : stackOkV2 rest) :
    stackOkV2 (stepV2 top rest line more).2.1 := by
  by_cases hb : (trimS line).isEmpty = true
  · rw [stepV2_blank top rest line more hb]
    exact hok
  · have hb' : (trimS line).isEmpty = false := by simpa using hb
    have hok2 := popV2_stackOk (leadingSpacesV2 line : Int) rest top hok
    cases hkv : parseKeyValue (trimS line) with
    | none =>
      rw [stepV2_nokv top rest line more hb' hkv]
      by_cases hp : ((popV2 (leadingSpacesV2 line : Int) top rest).2).isEmpty = true
      · rw [if_pos hp]
        exact hok2
      · rw [if_neg hp]
        exact hok2
    | some kv =>
      obtain ⟨k2, v⟩ := kv
      by_cases hv : v = ['|']
      · subst hv
        rw [stepV2_pipe top rest line more k2 hb' hkv]
        exact hok2
      · by_cases hve : v.isEmpty = true
        · have hv0 : v = [] := by
            cases v with
            | nil => rfl
            | cons a t => simp at hve
          subst hv0
          rw [stepV2_empty_value top rest line more k2 hb' hkv]
          intro g hg
          rcases List.mem_cons.mp hg with h1 | h1
          · subst h1
            exact ⟨k2, [], List.getLast?_concat _⟩
          · exact hok2 g h1
        · have hve' : v.isEmpty = false := by simpa using hve
          rw [stepV2_scalar top rest line more k2 v hb' hkv hv hve']
          exact hok2

theorem stepV2_c2Inv (k : Str) (top : VFrame) (rest : List VFrame) (line : Str)
    (more : List Str) (hok : stackOkV2 rest) (hinv : c2Inv k top rest) :
    c2Inv k (stepV2 top rest line more).1 (stepV2 top rest line more).2.1 := by
  by_cases hb : (trimS line).isEmpty = true
  · rw [stepV2_blank top rest line more hb]
    exact hinv
  · have hb' : (trimS line).isEmpty = false := by simpa using hb
    have hpinv := popV2_c2Inv k (leadingSpacesV2 line : Int) rest top hok hinv
    cases hkv : parseKeyValue (trimS line) with
    | none =>
      rw [stepV2_nokv top rest line more hb' hkv]
      by_cases hp : ((popV2 (leadingSpacesV2 line : Int) top rest).2).isEmpty = true
      · rw [if_pos hp]
        exact hpinv
      · rw [if_neg hp]
        rcases hpinv with hA | hB
        · have hstep : hasEmptyKlist k
              ((popV2 (leadingSpacesV2 line : Int) top rest).1.items ++
                [Node.pstr (trimS line)]) = true := by
            rw [hasEmptyKlist_append, hA, Bool.true_or]
          exact Or.inl hstep
        · exact Or.inr hB
    | some kv =>
      obtain ⟨k2, v⟩ := kv
      by_cases hv : v = ['|']
      · subst hv
        rw [stepV2_pipe top rest line more k2 hb' hkv]
        rcases hpinv with hA | hB
        · have hstep : hasEmptyKlist k
              ((popV2 (leadingSpacesV2 line : Int) top rest).1.items ++
                [Node.kstr k2 (buildContentV2
                  (collectRaw (leadingSpacesV2 line : Int) more).1)]) = true := by
            rw [hasEmptyKlist_append, hA, Bool.true_or]
          exact Or.inl hstep
        · exact Or.inr hB
      · by_cases hve : v.isEmpty = true
        · have hv0 : v = [] := by
            cases v with
            | nil => rfl
            | cons a t => simp at hve
          subst hv0
          rw [stepV2_empty_value top rest line more k2 hb' hkv]
          rcases hpinv with hA | ⟨g, hg, hD⟩
          · have hdrop : hasEmptyKlist k
                ((popV2 (leadingSpacesV2 line : Int) top rest).1.items ++
                  [Node.klist k2 []]).dropLast = true := by
              rw [List.dropLast_concat]
              exact hA
            exact Or.inr ⟨{ (popV2 (leadingSpacesV2 line : Int) top rest).1 with
                items := (popV2 (leadingSpacesV2 line : Int) top rest).1.items ++
                  [Node.klist k2 []] }, List.mem_cons_self _ _, hdrop⟩
          · exact Or.inr ⟨g, List.mem_cons_of_mem _ hg, hD⟩
        · have hve' : v.isEmpty = false := by simpa using hve
          rw [stepV2_scalar top rest line more k2 v hb' hkv hv hve']
          rcases hpinv with hA | hB
          · have hstep : hasEmptyKlist k
                ((popV2 (leadingSpacesV2 line : Int) top rest).1.items ++
                  [Node.kstr k2 v]) = true := by
              rw [hasEmptyKlist_append, hA, Bool.true_or]
            exact Or.inl hstep
          · exact Or.inr hB

theorem loopV2_c2Inv (k : Str) :
    ∀ (fuel : Nat) (ls : List Str) (top : VFrame) (rest : List VFrame),
      stackOkV2 rest → c2Inv k top rest →
      stackOkV2 (loopV2 fuel top rest ls).2 ∧
      c2Inv k (loopV2 fuel top rest ls).1 (loopV2 fuel top rest ls).2 := by
  intro fuel
  induction fuel with
  | zero => intro ls top rest hok hinv; exact ⟨hok, hinv⟩
  | succ fu ih =>
    intro ls top rest hok hinv
    cases ls with
    | nil => exact ⟨hok, hinv⟩
    | cons l more =>
      rw [loopV2_succ]
      exact ih _ _ _ (stepV2_stackOk top rest l more hok)
        (stepV2_c2Inv k top rest l more hok hinv)

theorem sealAllV2_c2 (k : Str) :
    ∀ (rest : List VFrame) (top : VFrame), stackOkV2 rest → c2Inv k top rest →
      hasEmptyKlist k (sealAllV2 top rest) = true := by
  intro rest
  induction rest with
  | nil =>
    intro top _ hinv
    rcases hinv with hA | ⟨g, hg, _⟩
    · exact hA
    · exact absurd hg (List.not_mem_nil g)
  | cons g t ih =>
    intro top hok hinv
    show hasEmptyKlist k (sealAllV2 (sealNodes top.items g) t) = true
    apply ih (sealNodes top.items g) (fun g2 hg2 => hok g2 (List.mem_cons_of_mem g hg2))
    rcases hinv with hA | ⟨g3, hg3, hD⟩
    · exact Or.inl (sealNodes_hasEmpty_of_items k top.items g (hok g (List.mem_cons_self g t)) hA)
    · rcases List.mem_cons.mp hg3 with h3 | h3
      · rw [h3] at hD
        exact Or.inl (sealNodes_hasEmpty_of_dropLast k top.items g (hok g (List.mem_cons_self g t)) hD)
      · exact Or.inr ⟨g3, h3, hD⟩

theorem reach_stackOk : ∀ {a b : VFrame × List VFrame × List Str}, ReachV2 a b →
    stackOkV2 a.2.1 → stackOkV2 b.2.1 := by
  intro a b h
  induction h with
  | refl c => intro hok; exact hok
  | step top rest line more c hr ih =>
    intro hok
    exact ih (stepV2_stackOk top rest line more hok)

/-! ## V2: the fresh frame opened by an empty value collapses when nothing
is more-indented -/

theorem popV2_fresh (ind2 ind : Int) (f1 : VFrame) (r : List VFrame) (k : Str)
    (hg : f1.items.getLast? = some (.klist k []))
    (h : ind2 ≤ ind) :
    popV2 ind2 ⟨[], ind⟩ (f1 :: r) = popV2 ind2 f1 r := by
  show (if ind2 ≤ ind then popV2 ind2 (sealNodes [] f1) r
        else ((⟨[], ind⟩ : VFrame), f1 :: r)) = popV2 ind2 f1 r
  rw [if_pos h, sealNodes_nil_of_klist k f1 hg]

theorem sealAllV2_fresh (ind : Int) (f1 : VFrame) (r : List VFrame) (k : Str)
    (hg : f1.items.getLast? = some (.klist k [])) :
    sealAllV2 ⟨[], ind⟩ (f1 :: r) = sealAllV2 f1 r := by
  show sealAllV2 (sealNodes [] f1) r = sealAllV2 f1 r
  rw [sealNodes_nil_of_klist k f1 hg]

theorem loopV2_fresh_collapse (k : Str) (ind : Int) (f1 : VFrame) (r : List VFrame)
    (hg : f1.items.getLast? = some (.klist k [])) :
    ∀ (ls : List Str) (fuel : Nat), (∀ l ∈ ls, (leadingSpacesV2 l : Int) ≤ ind) →
      sealAllV2 (loopV2 fuel ⟨[], ind⟩ (f1 :: r) ls).1 (loopV2 fuel ⟨[], ind⟩ (f1 :: r) ls).2 =
      sealAllV2 (loopV2 fuel f1 r ls).1 (loopV2 fuel f1 r ls).2 := by
  intro ls
  induction ls with
  | nil =>
    intro fuel _
    cases fuel with
    | zero => exact sealAllV2_fresh ind f1 r k hg
    | succ fu => exact sealAllV2_fresh ind f1 r k hg
  | cons l more ih =>
    intro fuel hle
    cases fuel with
    | zero => exact sealAllV2_fresh ind f1 r k hg
    | succ fu =>
      rw [loopV2_succ, loopV2_succ]
      by_cases hb : (trimS l).isEmpty = true
      · rw [stepV2_blank (⟨[], ind⟩ : VFrame) (f1 :: r) l more hb, stepV2_blank f1 r l more hb]
        exact ih fu (fun l2 h2 => hle l2 (List.mem_cons_of_mem l h2))
      · have hb' : (trimS l).isEmpty = false := by simpa using hb
        have hp : popV2 (leadingSpacesV2 l : Int) (⟨[], ind⟩ : VFrame) (f1 :: r) =
            popV2 (leadingSpacesV2 l : Int) f1 r :=
          popV2_fresh _ ind f1 r k hg (hle l (List.mem_cons_self l more))
        have hstep : stepV2 ⟨[], ind⟩ (f1 :: r) l more = stepV2 f1 r l more := by
          unfold stepV2
          rw [if_neg hb, if_neg hb]
          cases hkv : parseKeyValue (trimS l) with
          | none =>
            simp only [hkv]
            rw [hp]
          | some kv =>
            obtain ⟨k2, v⟩ := kv
            simp only [hkv]
            rw [hp]
        rw [hstep]

/-- C2 (amended): V2 never raises an error on a bare `key:` line with no
more-indented following line.  Whenever the V2 parser reaches a remaining-line
list starting with a non-blank line that lexes to a key with an empty value,
and no later line is indented deeper than that line, `parseNymlV2` returns
normally and its output contains (at some depth) the item `{[key]: []}` — the
bare key silently becomes an empty list, it is not rejected. -/
theorem c2_bare_key_amended (text : Str) (top0 : VFrame) (rest0 : List VFrame)
    (kline : Str) (post : List Str) (k : Str)
    (hreach : ReachV2 (⟨[], -1⟩, [], splitLinesV2 text) (top0, rest0, kline :: post))
    (hb : (trimS kline).isEmpty = false)
    (hkv : parseKeyValue (trimS kline) = some (k, []))
    (hpost : ∀ l ∈ post, (leadingSpacesV2 l : Int) ≤ (leadingSpacesV2 kline : Int)) :
    hasEmptyKlist k (parseNymlV2 text) = true := by
  have hrw := loopV2_of_reach ⟨[], -1⟩ [] (splitLinesV2 text) top0 rest0 (kline :: post) hreach
  have hstart : parseNymlV2 text =
      sealAllV2 (loopV2 ((splitLinesV2 text).length + 1) ⟨[], -1⟩ [] (splitLinesV2 text)).1
        (loopV2 ((splitLinesV2 text).length + 1) ⟨[], -1⟩ [] (splitLinesV2 text)).2 := rfl
  rw [hstart, hrw, loopV2_succ, stepV2_empty_value top0 rest0 kline post k hb hkv]
  show hasEmptyKlist k (sealAllV2
      (loopV2 ((kline :: post).length) ⟨[], (leadingSpacesV2 kline : Int)⟩
        ({ (popV2 (leadingSpacesV2 kline : Int) top0 rest0).1 with
            items := (popV2 (leadingSpacesV2 kline : Int) top0 rest0).1.items ++
              [Node.klist k []] } ::
          (popV2 (leadingSpacesV2 kline : Int) top0 rest0).2) post).1
      (loopV2 ((kline :: post).length) ⟨[], (leadingSpacesV2 kline : Int)⟩
        ({ (popV2 (leadingSpacesV2 kline : Int) top0 rest0).1 with
            items := (popV2 (leadingSpacesV2 kline : Int) top0 rest0).1.items ++
              [Node.klist k []] } ::
          (popV2 (leadingSpacesV2 kline : Int) top0 rest0).2) post).2) = true
  rw [loopV2_fresh_collapse k (leadingSpacesV2 kline : Int)
      { (popV2 (leadingSpacesV2 kline : Int) top0 rest0).1 with
          items := (popV2 (leadingSpacesV2 kline : Int) top0 rest0).1.items ++
            [Node.klist k []] }
      (popV2 (leadingSpacesV2 kline : Int) top0 rest0).2
      (List.getLast?_concat _) post ((kline :: post).length) hpost]
  have hok0 : stackOkV2 ([] : List VFrame) := fun g hg2 => absurd hg2 (List.not_mem_nil g)
  have hokR : stackOkV2 rest0 := reach_stackOk hreach hok0
  have hokP : stackOkV2 (popV2 (leadingSpacesV2 kline : Int) top0 rest0).2 :=
    popV2_stackOk _ rest0 top0 hokR
  have hinv1 : c2Inv k { (popV2 (leadingSpacesV2 kline : Int) top0 rest0).1 with
      items := (popV2 (leadingSpacesV2 kline : Int) top0 rest0).1.items ++ [Node.klist k []] }
      (popV2 (leadingSpacesV2 kline : Int) top0 rest0).2 := by
    have hA : hasEmptyKlist k
        ((popV2 (leadingSpacesV2 kline : Int) top0 rest0).1.items ++
          [Node.klist k []]) = true := by
      rw [hasEmptyKlist_append]
      have h1 : hasEmptyKlist k [Node.klist k []] = true := by
        show (hasEmptyKnode k (Node.klist k []) || hasEmptyKlist k ([] : List Node)) = true
        have h2 : hasEmptyKnode k (Node.klist k []) = true := by
          show ((decide (k = k) && ([] : List Node).isEmpty) ||
            hasEmptyKlist k ([] : List Node)) = true
          simp
        rw [h2]
        rfl
      rw [h1, Bool.or_true]
    exact Or.inl hA
  have hfin := loopV2_c2Inv k ((kline :: post).length) post
    { (popV2 (leadingSpacesV2 kline : Int) top0 rest0).1 with
        items := (popV2 (leadingSpacesV2 kline : Int) top0 rest0).1.items ++ [Node.klist k []] }
    (popV2 (leadingSpacesV2 kline : Int) top0 rest0).2 hokP hinv1
  exact sealAllV2_c2 k _ _ hfin.1 hfin.2

/-- Concrete instance of the amended C2 theorem: in
`"x: 1\na:\nb: c"` the bare key line `a:` is followed only by a line at the
same indent; the parse raises nothing and yields an empty-list item for `a`. -/
theorem c2_bare_key_amended_witness :
    hasEmptyKlist (str "a") (parseNymlV2 (str "x: 1\na:\nb: c")) = true :=
  c2_bare_key_amended (str "x: 1\na:\nb: c")
    ⟨[Node.kstr (str "x") (str "1")], -1⟩ [] (str "a:") [str "b: c"] (str "a")
    (ReachV2.step ⟨[], -1⟩ [] (str "x: 1") [str "a:", str "b: c"] _ (ReachV2.refl _))
    rfl rfl (by decide)

end Nyml
